import Mathlib

/-!
Verification development for the airbitz-core transaction cache
(`src/abcd/bitcoin/TxDatabase.cpp`).

The C++ source is shallowly embedded: the row table becomes an association
list keyed by txid, machine integers become `Nat`/`Int` with explicit
`% 2 ^ w` at the serialization boundary, the wall clock becomes an explicit
`now` argument, and fallible operations return `Option`/error codes.
-/

namespace AirbitzTx

/-! ## Little-endian byte encoding

Models libbitcoin's `serializer` / `deserializer` primitives used by
`TxDatabase::serialize` and `TxDatabase::load`: fixed-width little-endian
integer fields on a byte stream.
-/

/-- Little-endian byte list (width `w`) of a natural number. -/
def toLE : Nat → Nat → List Nat
  | 0, _ => []
  | w + 1, v => v % 256 :: toLE w (v / 256)

/-- Recombine a little-endian byte list into a natural number. -/
def fromLE : List Nat → Nat
  | [] => 0
  | b :: rest => b + 256 * fromLE rest

theorem toLE_length (w v : Nat) : (toLE w v).length = w := by
  induction w generalizing v with
  | zero => rfl
  | succ w ih => simp [toLE, ih]

theorem fromLE_toLE (w v : Nat) (h : v < 256 ^ w) : fromLE (toLE w v) = v := by
  induction w generalizing v with
  | zero => simp [toLE, fromLE]; omega
  | succ w ih =>
    have hdiv : v / 256 < 256 ^ w := by
      rw [Nat.div_lt_iff_lt_mul (by norm_num)]
      calc v < 256 ^ (w + 1) := h
        _ = 256 ^ w * 256 := by ring
    simp [toLE, fromLE, ih _ hdiv]
    omega

/-- `write_byte`: one byte on the stream. -/
def writeByte (b : Nat) : List Nat := [b % 256]

/-- `write_4_bytes`: little-endian 32-bit field. -/
def write4 (v : Nat) : List Nat := toLE 4 (v % 2 ^ 32)

/-- `write_8_bytes`: little-endian 64-bit field. -/
def write8 (v : Nat) : List Nat := toLE 8 (v % 2 ^ 64)

/-- `write_8_bytes` applied to a signed 64-bit value (two's complement). -/
def write8i (v : Int) : List Nat := toLE 8 (v % (2 ^ 64 : Int)).toNat

/-- `write_hash`: a 32-byte hash field. -/
def writeHash (v : Nat) : List Nat := toLE 32 (v % 2 ^ 256)

/-- Boolean flag serialized as one byte (`write_byte(bool)`). -/
def writeFlag (b : Bool) : List Nat := [if b then 1 else 0]

/-- Reinterpret a 64-bit unsigned value as a signed `long long`
(the conversion performed when `load` assigns `read_8_bytes()` to
`block_height`). -/
def wrapI64 (n : Nat) : Int := if n < 2 ^ 63 then (n : Int) else (n : Int) - 2 ^ 64

theorem wrapI64_write8i (v : Int) (h1 : -(2 ^ 63) ≤ v) (h2 : v < 2 ^ 63) :
    wrapI64 (fromLE (write8i v)) = v := by
  have hmod : (0 : Int) < 2 ^ 64 := by norm_num
  have hnn : 0 ≤ v % (2 ^ 64 : Int) := Int.emod_nonneg v (by norm_num)
  have hlt : v % (2 ^ 64 : Int) < 2 ^ 64 := Int.emod_lt_of_pos v hmod
  have hne : (v % (2 ^ 64 : Int)).toNat < 256 ^ 8 := by
    have : ((2 : Int) ^ 64) = ((256 ^ 8 : Nat) : Int) := by norm_num
    omega
  rw [write8i, fromLE_toLE 8 _ hne]
  have hcases : v % (2 ^ 64 : Int) = v ∨ v % (2 ^ 64 : Int) = v + 2 ^ 64 := by
    omega
  rcases hcases with hc | hc <;> simp [wrapI64] <;> omega

/-! ## Stream readers

Models `bc::make_deserializer`: reads throw `end_of_stream` (here `none`)
when the input is exhausted.
-/

/-- `read_byte`. -/
def readByte : List Nat → Option (Nat × List Nat)
  | [] => none
  | b :: rest => some (b, rest)

/-- Read exactly `k` bytes. -/
def readBytes (k : Nat) (data : List Nat) : Option (List Nat × List Nat) :=
  if k ≤ data.length then some (data.take k, data.drop k) else none

/-- `read_4_bytes` (little-endian). -/
def readU32 (data : List Nat) : Option (Nat × List Nat) :=
  (readBytes 4 data).map fun p => (fromLE p.1, p.2)

/-- `read_8_bytes` (little-endian). -/
def readU64 (data : List Nat) : Option (Nat × List Nat) :=
  (readBytes 8 data).map fun p => (fromLE p.1, p.2)

/-- `read_hash` (32 bytes). -/
def readHash (data : List Nat) : Option (Nat × List Nat) :=
  (readBytes 32 data).map fun p => (fromLE p.1, p.2)

theorem readBytes_exact {l : List Nat} {k : Nat} (r : List Nat) (h : l.length = k) :
    readBytes k (l ++ r) = some (l, r) := by
  subst h
  simp [readBytes, List.take_left, List.drop_left]

theorem readBytes_shrink {k : Nat} {data taken rest : List Nat}
    (h : readBytes k data = some (taken, rest)) : rest.length ≤ data.length := by
  by_cases hk : k ≤ data.length
  · simp [readBytes, hk] at h
    rcases h with ⟨h1, h2⟩
    subst h2
    simp
  · simp [readBytes, hk] at h

theorem readByte_shrink {data rest : List Nat} {b : Nat}
    (h : readByte data = some (b, rest)) : rest.length < data.length := by
  cases data with
  | nil => simp [readByte] at h
  | cons x xs =>
    simp [readByte] at h
    rcases h with ⟨h1, h2⟩
    subst h2
    simp

theorem readU32_shrink {data rest : List Nat} {v : Nat}
    (h : readU32 data = some (v, rest)) : rest.length ≤ data.length := by
  simp only [readU32, Option.map_eq_some'] at h
  obtain ⟨⟨l, r2⟩, hl, heq⟩ := h
  injection heq with h1 h2
  subst h2
  exact readBytes_shrink hl

theorem readU64_shrink {data rest : List Nat} {v : Nat}
    (h : readU64 data = some (v, rest)) : rest.length ≤ data.length := by
  simp only [readU64, Option.map_eq_some'] at h
  obtain ⟨⟨l, r2⟩, hl, heq⟩ := h
  injection heq with h1 h2
  subst h2
  exact readBytes_shrink hl

theorem readHash_shrink {data rest : List Nat} {v : Nat}
    (h : readHash data = some (v, rest)) : rest.length ≤ data.length := by
  simp only [readHash, Option.map_eq_some'] at h
  obtain ⟨⟨l, r2⟩, hl, heq⟩ := h
  injection heq with h1 h2
  subst h2
  exact readBytes_shrink hl

theorem readU32_write4 (v : Nat) (r : List Nat) (h : v < 2 ^ 32) :
    readU32 (write4 v ++ r) = some (v, r) := by
  have hp : (256 : Nat) ^ 4 = 2 ^ 32 := by norm_num
  rw [readU32, write4, readBytes_exact r (toLE_length 4 _), Nat.mod_eq_of_lt h]
  simp [fromLE_toLE 4 v (hp ▸ h)]

theorem readU64_write8 (v : Nat) (r : List Nat) (h : v < 2 ^ 64) :
    readU64 (write8 v ++ r) = some (v, r) := by
  have hp : (256 : Nat) ^ 8 = 2 ^ 64 := by norm_num
  rw [readU64, write8, readBytes_exact r (toLE_length 8 _), Nat.mod_eq_of_lt h]
  simp [fromLE_toLE 8 v (hp ▸ h)]

theorem readHash_writeHash (v : Nat) (r : List Nat) (h : v < 2 ^ 256) :
    readHash (writeHash v ++ r) = some (v, r) := by
  have hp : (256 : Nat) ^ 32 = 2 ^ 256 := by norm_num
  rw [readHash, writeHash, readBytes_exact r (toLE_length 32 _), Nat.mod_eq_of_lt h]
  simp [fromLE_toLE 32 v (hp ▸ h)]

theorem readByte_writeByte (b : Nat) (r : List Nat) (h : b < 256) :
    readByte (writeByte b ++ r) = some (b, r) := by
  simp [readByte, writeByte, Nat.mod_eq_of_lt h]

theorem readByte_writeFlag (b : Bool) (r : List Nat) :
    readByte (writeFlag b ++ r) = some (if b then 1 else 0, r) := by
  cases b <;> simp [readByte, writeFlag]

theorem readU64_write8i (v : Int) (r : List Nat) :
    readU64 (write8i v ++ r) = some ((v % (2 ^ 64 : Int)).toNat, r) := by
  rw [readU64, write8i, readBytes_exact r (toLE_length 8 _)]
  have hlt : (v % (2 ^ 64 : Int)).toNat < 256 ^ 8 := by
    have h1 : 0 ≤ v % (2 ^ 64 : Int) := Int.emod_nonneg v (by norm_num)
    have h2 : v % (2 ^ 64 : Int) < 2 ^ 64 := Int.emod_lt_of_pos v (by norm_num)
    have h3 : ((2 : Int) ^ 64) = ((256 ^ 8 : Nat) : Int) := by norm_num
    omega
  simp only [Option.map_some']
  rw [fromLE_toLE 8 _ hlt]

/-! ## Transaction data model -/

/-- `bc::point_type`: a previous-output reference (32-byte hash as `Nat`,
plus output index). -/
structure OutPoint where
  hash : Nat
  index : Nat
deriving DecidableEq, Repr

/-- One input of `bc::transaction_type`. -/
structure TxInput where
  previous_output : OutPoint
  script : List Nat
deriving DecidableEq, Repr

/-- One output of `bc::transaction_type`. -/
structure TxOutput where
  value : Nat
  script : List Nat
deriving DecidableEq, Repr

/-- `bc::transaction_type`: only the fields the cache inspects. -/
structure Transaction where
  inputs : List TxInput
  outputs : List TxOutput
deriving DecidableEq, Repr

/-- Modelled from the spec: `TxState` is declared in `TxDatabase.hpp`
(not under `src/`); §3 gives the enumeration `{unconfirmed, confirmed}`
and §4.5 pins the serialized numeric values 0 and 1. -/
inductive TxState where
  | unconfirmed
  | confirmed
deriving DecidableEq, Repr

/-- `static_cast<uint8_t>(state)` with the §4.5 numbering. -/
def TxState.toByte : TxState → Nat
  | .unconfirmed => 0
  | .confirmed => 1

/-- `static_cast<TxState>(byte)` as observed through the comparisons the
code performs (`TxState::confirmed == state` and its negation). -/
def TxState.ofByte (b : Nat) : TxState :=
  if b = 1 then .confirmed else .unconfirmed

/-- Modelled from the spec: `TxRow` is declared in `TxDatabase.hpp`
(not under `src/`); §3 lists exactly these fields. -/
structure TxRow where
  tx : Transaction
  txid : Nat
  ntxid : Nat
  state : TxState
  block_height : Int
  timestamp : Int
  need_check : Bool
  bMalleated : Bool
  bMasterConfirm : Bool
deriving DecidableEq, Repr

/-! ## Codec (external collaborator)

Modelled from the spec: the transaction codec (`satoshi_save`,
`satoshi_load`, `satoshi_raw_size`, `bc::hash_transaction`, `makeNtxid`)
lives in libbitcoin / `Utility.hpp`, outside `src/`. §6 gives its
contract: `encode(tx) → bytes`, `decode(bytes) → (tx, bytes_consumed)`,
`txid(tx)` the hash of the full encoding, `ntxid(tx)` the hash of the
encoding with every input's signature script blanked. The concrete byte
layout below is a definite executable instance of that contract.
-/

/-- Encode one input: 32-byte previous hash, 4-byte index, 4-byte script
length, then the script bytes. -/
def encodeInput (i : TxInput) : List Nat :=
  writeHash i.previous_output.hash ++ write4 i.previous_output.index ++
    write4 i.script.length ++ i.script

/-- Encode one output: 8-byte value, 4-byte script length, script bytes. -/
def encodeOutput (o : TxOutput) : List Nat :=
  write8 o.value ++ write4 o.script.length ++ o.script

/-- `encode(tx)`: 4-byte input count, inputs, 4-byte output count,
outputs. -/
def encodeTx (tx : Transaction) : List Nat :=
  write4 tx.inputs.length ++ tx.inputs.flatMap encodeInput ++
    write4 tx.outputs.length ++ tx.outputs.flatMap encodeOutput

/-- Decode one input. -/
def readInput (data : List Nat) : Option (TxInput × List Nat) := do
  let (h, d1) ← readHash data
  let (idx, d2) ← readU32 d1
  let (len, d3) ← readU32 d2
  let (script, d4) ← readBytes len d3
  some (⟨⟨h, idx⟩, script⟩, d4)

/-- Decode a counted list of inputs. -/
def readInputs : Nat → List Nat → Option (List TxInput × List Nat)
  | 0, data => some ([], data)
  | n + 1, data => do
    let (i, d1) ← readInput data
    let (rest, d2) ← readInputs n d1
    some (i :: rest, d2)

/-- Decode one output. -/
def readOutput (data : List Nat) : Option (TxOutput × List Nat) := do
  let (v, d1) ← readU64 data
  let (len, d2) ← readU32 d1
  let (script, d3) ← readBytes len d2
  some (⟨v, script⟩, d3)

/-- Decode a counted list of outputs. -/
def readOutputs : Nat → List Nat → Option (List TxOutput × List Nat)
  | 0, data => some ([], data)
  | n + 1, data => do
    let (o, d1) ← readOutput data
    let (rest, d2) ← readOutputs n d1
    some (o :: rest, d2)

/-- `decode(bytes)`: parse one transaction, returning the remainder of the
stream (`satoshi_load` followed by advancing the iterator). -/
def decodeTx (data : List Nat) : Option (Transaction × List Nat) := do
  let (n1, d1) ← readU32 data
  let (ins, d2) ← readInputs n1 d1
  let (n2, d3) ← readU32 d2
  let (outs, d4) ← readOutputs n2 d3
  some (⟨ins, outs⟩, d4)

/-- Machine-width bounds under which the codec is lossless: all counts fit
in `u32`, hashes in 32 bytes, values in `u64`. -/
def WfTx (tx : Transaction) : Prop :=
  tx.inputs.length < 2 ^ 32 ∧ tx.outputs.length < 2 ^ 32 ∧
    (∀ i ∈ tx.inputs, i.previous_output.hash < 2 ^ 256 ∧
      i.previous_output.index < 2 ^ 32 ∧ i.script.length < 2 ^ 32) ∧
    (∀ o ∈ tx.outputs, o.value < 2 ^ 64 ∧ o.script.length < 2 ^ 32)

instance (tx : Transaction) : Decidable (WfTx tx) := by
  unfold WfTx
  infer_instance

/-- Compress a byte string to a 32-byte hash value. On strings of at most
31 bytes this is injective, which is all the hash-collision-freedom the
development relies on. -/
def hashBytes (l : List Nat) : Nat :=
  l.foldl (fun a b => a * 331 + b % 256 + 1) 7 % 2 ^ 256

/-- `bc::hash_transaction`: hash of the full encoding (spec §6). -/
def txidOf (tx : Transaction) : Nat := hashBytes (encodeTx tx)

/-- `makeNtxid` (from `Utility.hpp`, modelled from the spec): hash of the
encoding with each input's signature script replaced by a zero-length
script. -/
def makeNtxid (tx : Transaction) : Nat :=
  hashBytes (encodeTx ⟨tx.inputs.map fun i => ⟨i.previous_output, []⟩, tx.outputs⟩)

theorem readInput_encodeInput (i : TxInput) (r : List Nat)
    (h : i.previous_output.hash < 2 ^ 256 ∧ i.previous_output.index < 2 ^ 32 ∧
      i.script.length < 2 ^ 32) :
    readInput (encodeInput i ++ r) = some (i, r) := by
  obtain ⟨h1, h2, h3⟩ := h
  rw [readInput, encodeInput]
  simp only [List.append_assoc]
  rw [readHash_writeHash _ _ h1]
  simp only [Option.bind_eq_bind, Option.some_bind]
  rw [readU32_write4 _ _ h2]
  simp only [Option.some_bind]
  rw [readU32_write4 _ _ h3]
  simp only [Option.some_bind]
  rw [readBytes_exact r rfl]
  simp

theorem readOutput_encodeOutput (o : TxOutput) (r : List Nat)
    (h : o.value < 2 ^ 64 ∧ o.script.length < 2 ^ 32) :
    readOutput (encodeOutput o ++ r) = some (o, r) := by
  obtain ⟨h1, h2⟩ := h
  rw [readOutput, encodeOutput]
  simp only [List.append_assoc]
  rw [readU64_write8 _ _ h1]
  simp only [Option.bind_eq_bind, Option.some_bind]
  rw [readU32_write4 _ _ h2]
  simp only [Option.some_bind]
  rw [readBytes_exact r rfl]
  simp

theorem readInputs_encode (l : List TxInput) (r : List Nat)
    (h : ∀ i ∈ l, i.previous_output.hash < 2 ^ 256 ∧
      i.previous_output.index < 2 ^ 32 ∧ i.script.length < 2 ^ 32) :
    readInputs l.length (l.flatMap encodeInput ++ r) = some (l, r) := by
  induction l with
  | nil => simp [readInputs]
  | cons i rest ih =>
    simp only [List.length_cons, List.flatMap_cons, List.append_assoc, readInputs]
    rw [readInput_encodeInput i _ (h i (by simp))]
    simp only [Option.bind_eq_bind, Option.some_bind]
    rw [ih fun x hx => h x (by simp [hx])]
    rfl

theorem readOutputs_encode (l : List TxOutput) (r : List Nat)
    (h : ∀ o ∈ l, o.value < 2 ^ 64 ∧ o.script.length < 2 ^ 32) :
    readOutputs l.length (l.flatMap encodeOutput ++ r) = some (l, r) := by
  induction l with
  | nil => simp [readOutputs]
  | cons o rest ih =>
    simp only [List.length_cons, List.flatMap_cons, List.append_assoc, readOutputs]
    rw [readOutput_encodeOutput o _ (h o (by simp))]
    simp only [Option.bind_eq_bind, Option.some_bind]
    rw [ih fun x hx => h x (by simp [hx])]
    rfl

/-- Codec round trip: decoding an encoded transaction consumes exactly the
encoding and reproduces the transaction. -/
theorem decodeTx_encodeTx (tx : Transaction) (r : List Nat) (h : WfTx tx) :
    decodeTx (encodeTx tx ++ r) = some (tx, r) := by
  obtain ⟨h1, h2, h3, h4⟩ := h
  rw [decodeTx, encodeTx]
  simp only [List.append_assoc]
  rw [readU32_write4 _ _ h1]
  simp only [Option.bind_eq_bind, Option.some_bind]
  rw [readInputs_encode _ _ h3]
  simp only [Option.some_bind]
  rw [readU32_write4 _ _ h2]
  simp only [Option.some_bind]
  rw [readOutputs_encode _ _ h4]
  rfl

/-! ## TxDatabase: state and queries -/

instance {e a : Type} [DecidableEq e] [DecidableEq a] : DecidableEq (Except e a) :=
  fun x y =>
  match x, y with
  | .error v1, .error v2 =>
    if h : v1 = v2 then isTrue (by rw [h])
    else isFalse fun hc => h (by injection hc)
  | .error v1, .ok v2 => isFalse fun hc => Except.noConfusion hc
  | .ok v1, .error v2 => isFalse fun hc => Except.noConfusion hc
  | .ok v1, .ok v2 =>
    if h : v1 = v2 then isTrue (by rw [h])
    else isFalse fun hc => h (by injection hc)

/-- Error kinds surfaced by the cache (spec §7). The C++ returns
`ABC_ERROR(...)` values distinguished by message; the spec names the five
kinds. -/
inductive DbError where
  | NotInDatabase
  | OutdatedFormat
  | UnknownHeader
  | Truncated
  | UnknownRecord
deriving DecidableEq, Repr

/-- `TxDatabase`: the row table (`std::unordered_map<hash, TxRow>` as an
association list in iteration order), the last seen height, and the
configured stale-unconfirmed timeout. -/
structure TxDatabase where
  rows : List (Nat × TxRow)
  last_height : Nat
  unconfirmed_timeout : Nat
deriving DecidableEq, Repr

/-- The constructor `TxDatabase(unconfirmed_timeout)`. -/
def mkTxDatabase (timeout : Nat) : TxDatabase := ⟨[], 0, timeout⟩

/-- `rows_.find(txid)` on the association list. -/
def lookupRow : List (Nat × TxRow) → Nat → Option TxRow
  | [], _ => none
  | kr :: rest, t => if kr.1 = t then some kr.2 else lookupRow rest t

/-- In-place mutation of the row table: update every entry's value,
keeping keys and order (C++ mutates rows through references). -/
def mapRows (rows : List (Nat × TxRow)) (f : Nat → TxRow → TxRow) :
    List (Nat × TxRow) :=
  rows.map fun kr => (kr.1, f kr.1 kr.2)

/-- Update the row stored under key `t` in place. -/
def updateKey (rows : List (Nat × TxRow)) (t : Nat) (f : TxRow → TxRow) :
    List (Nat × TxRow) :=
  mapRows rows fun k r => if k = t then f r else r

/-- `TxDatabase::ntxidLookupAll`: every row whose `ntxid` matches, in row
order. -/
def ntxidLookupAll (db : TxDatabase) (ntxid : Nat) : List TxRow :=
  (db.rows.filter fun kr => decide (kr.2.ntxid = ntxid)).map Prod.snd

/-- `TxDatabase::ntxidHeight`. -/
def ntxidHeight (db : TxDatabase) (ntxid : Nat) : Except DbError Int :=
  let txRows := ntxidLookupAll db ntxid
  if txRows.isEmpty then
    .error .NotInDatabase
  else
    let height := txRows.foldl
      (fun h r => if r.state = .confirmed ∧ h < r.block_height then r.block_height else h)
      (0 : Int)
    -- special signal to the GUI: malleated and unconfirmed
    let height := if 1 < txRows.length ∧ height = 0 then -1 else height
    .ok height

/-- The scan inside `TxDatabase::ntxidLookup`: `acc` plays the role of the
`(tx, foundTx)` pair; a row with `bMasterConfirm` returns the current
candidate immediately. -/
def ntxidLookupGo : List TxRow → Option Transaction → Option Transaction
  | [], acc => acc
  | r :: rest, acc =>
    let acc2 := match acc with
      | none => some r.tx
      | some t => if r.state = .confirmed then some r.tx else some t
    if r.bMasterConfirm then acc2 else ntxidLookupGo rest acc2

/-- `TxDatabase::ntxidLookup`. The C++ returns a default-constructed
transaction when nothing matches; that absence is modelled as `none`. -/
def ntxidLookup (db : TxDatabase) (ntxid : Nat) : Option Transaction :=
  ntxidLookupGo (ntxidLookupAll db ntxid) none

/-- `TxDatabase::foreach_forked`: the `txid`s passed to the callback, in
row order. -/
def foreachForked (db : TxDatabase) : List Nat :=
  (db.rows.filter fun kr =>
    decide (kr.2.state = .confirmed) && kr.2.need_check).map Prod.fst

/-! ## TxDatabase: mutations -/

/-- `TxDatabase::check_fork`. The function's own comment promises to mark
all confirmed transactions just below `height` as needing a check, but
both of its loops are written `for (auto row: rows_)`: `row` is a by-value
copy of the map entry, so the write `row.second.need_check = true` lands
on the copy and is discarded when the iteration ends. The function's
observable effect on the database is therefore none. -/
def checkFork (db : TxDatabase) (height : Int) : TxDatabase :=
  let _ := height
  db

/-- `TxDatabase::at_height`: record the tip height, then run the fork
detector. -/
def atHeight (db : TxDatabase) (height : Nat) : TxDatabase :=
  checkFork {db with last_height := height} height

/-- `TxDatabase::insert`. -/
def insertTx (db : TxDatabase) (now : Int) (tx : Transaction) : Bool × TxDatabase :=
  let ntxid := makeNtxid tx
  let txid := txidOf tx
  match lookupRow db.rows txid with
  | some _ => (false, db)
  | none =>
    -- scan the ntxid cluster: inherit state/height from rows with a
    -- different txid (last one wins) and mark them malleated
    let inh := db.rows.foldl
      (fun (acc : TxState × Int × Bool) kr =>
        if kr.2.ntxid = ntxid ∧ kr.2.txid ≠ txid then
          (kr.2.state, kr.2.block_height, true)
        else acc)
      (.unconfirmed, 0, false)
    let rows2 := mapRows db.rows fun _ r =>
      if r.ntxid = ntxid ∧ r.txid ≠ txid then {r with bMalleated := true} else r
    (true, {db with rows :=
      rows2 ++ [(txid, ⟨tx, txid, ntxid, inh.1, inh.2.1, now, false, inh.2.2, false⟩)]})

/-- `TxDatabase::confirmed`. The `BITCOIN_ASSERT(it != rows_.end())`
precondition (spec §7: a programmer error) is modelled by leaving the
database unchanged when the row is absent. -/
def confirmedOp (db : TxDatabase) (txid : Nat) (block_height : Int) : TxDatabase :=
  match lookupRow db.rows txid with
  | none => db
  | some row0 =>
    -- already confirmed in another block: the chain has forked
    let db1 := if row0.state = .confirmed ∧ row0.block_height ≠ block_height then
        checkFork db row0.block_height
      else db
    let rows1 := updateKey db1.rows txid fun r =>
      {r with state := .confirmed, block_height := block_height, bMasterConfirm := true}
    let hasSib := rows1.any fun kr =>
      decide (kr.2.ntxid = row0.ntxid) && decide (kr.2.txid ≠ txid)
    let rows2 := mapRows rows1 fun _ r =>
      if r.ntxid = row0.ntxid ∧ r.txid ≠ txid then
        {r with block_height := block_height, state := .confirmed, bMalleated := true}
      else r
    let rows3 := if hasSib then
        updateKey rows2 txid fun r => {r with bMalleated := true}
      else rows2
    {db1 with rows := rows3}

/-- `TxDatabase::unconfirmed`, with the same treatment of the
`BITCOIN_ASSERT` precondition as `confirmedOp`. When the row was confirmed
the sibling loop threads the local `(height, state, bMalleated)` triple
exactly as the C++ does: a `bMasterConfirm` sibling loads `height`/`state`
from its fields, any other sibling is demoted to unconfirmed with the `-1`
sentinel and forces `height = -1`, `bMalleated = true`. The source's
trailing `check_fork` call is guarded by `row.state == unconfirmed`, which
is false on this path (and `check_fork` has no effect regardless), so it
is omitted. -/
def unconfirmedOp (db : TxDatabase) (txid : Nat) : TxDatabase :=
  match lookupRow db.rows txid with
  | none => db
  | some row0 =>
    if row0.state = .confirmed then
      let acc := db.rows.foldl
        (fun (acc : Int × TxState × Bool) kr =>
          if kr.2.ntxid = row0.ntxid ∧ kr.2.txid ≠ txid then
            if kr.2.bMasterConfirm then (kr.2.block_height, kr.2.state, acc.2.2)
            else (-1, acc.2.1, true)
          else acc)
        (0, .unconfirmed, row0.bMalleated)
      let rows1 := mapRows db.rows fun _ r =>
        if r.ntxid = row0.ntxid ∧ r.txid ≠ txid ∧ r.bMasterConfirm = false then
          {r with block_height := -1, state := .unconfirmed, bMalleated := true}
        else r
      {db with rows := updateKey rows1 txid fun r =>
        {r with block_height := acc.1, state := acc.2.1, bMalleated := acc.2.2}}
    else
      {db with rows := updateKey db.rows txid fun r =>
        {r with block_height := 0, state := .unconfirmed, bMalleated := row0.bMalleated}}

/-- One public mutating operation, for reasoning about operation
sequences. -/
inductive DbOp where
  | ins (tx : Transaction) (now : Int)
  | conf (txid : Nat) (height : Int)
  | unconf (txid : Nat)

/-- Apply one operation. -/
def applyOp (db : TxDatabase) : DbOp → TxDatabase
  | .ins tx now => (insertTx db now tx).2
  | .conf t h => confirmedOp db t h
  | .unconf t => unconfirmedOp db t

/-- Apply a sequence of operations. -/
def applyOps (db : TxDatabase) (ops : List DbOp) : TxDatabase :=
  ops.foldl applyOp db

/-! ## Serializer -/

/-- `serial_magic = 0xfecdb763`. -/
def serialMagic : Nat := 0xfecdb763

/-- `old_serial_magic = 0x3eab61c3` (from the watcher). -/
def oldSerialMagic : Nat := 0x3eab61c3

/-- `serial_tx = 0x42`. -/
def serialTxByte : Nat := 0x42

/-- The purge-on-save test: old unconfirmed transactions are not saved. -/
def rowPurged (timeout : Nat) (now : Int) (r : TxRow) : Bool :=
  decide (r.timestamp + (timeout : Int) < now) && decide (r.state = .unconfirmed)

/-- The bytes `TxDatabase::serialize` emits for one (non-purged) row. -/
def rowBytes (kr : Nat × TxRow) : List Nat :=
  let r := kr.2
  let height : Int := if r.state = .unconfirmed then r.timestamp else r.block_height
  writeByte serialTxByte ++ writeHash kr.1 ++ encodeTx r.tx ++
    writeByte r.state.toByte ++ write8i height ++ writeFlag r.need_check ++
    writeHash r.txid ++ writeHash r.ntxid ++ writeFlag r.bMalleated ++
    writeFlag r.bMasterConfirm

/-- `TxDatabase::serialize`. -/
def serializeDB (db : TxDatabase) (now : Int) : List Nat :=
  write4 serialMagic ++ write8 db.last_height ++
    db.rows.flatMap fun kr =>
      if rowPurged db.unconfirmed_timeout now kr.2 then [] else rowBytes kr

/-- `rows[hash] = row`: replace an existing entry in place, else append. -/
def upsert (rows : List (Nat × TxRow)) (k : Nat) (r : TxRow) :
    List (Nat × TxRow) :=
  if (lookupRow rows k).isSome then updateKey rows k fun _ => r
  else rows ++ [(k, r)]

/-- The seven fixed-width fields that follow the tx encoding in a record:
state (u8), height-or-timestamp (i64), need_check (u8), txid (hash32),
ntxid (hash32), malleated (u8), master_confirm (u8). -/
def readTail (d3 : List Nat) :
    Option ((Nat × Nat × Nat × Nat × Nat × Nat × Nat) × List Nat) := do
  let (stByte, d4) ← readByte d3
  let (hts, d5) ← readU64 d4
  let (nc, d6) ← readByte d5
  let (txid, d7) ← readHash d6
  let (ntxid, d8) ← readHash d7
  let (mal, d9) ← readByte d8
  let (mas, d10) ← readByte d9
  some ((stByte, hts, nc, txid, ntxid, mal, mas), d10)

/-- Build the loaded `TxRow` from the record-tail fields: the
`height_or_timestamp` value becomes `block_height`; an unconfirmed row
takes its timestamp from that same value, a confirmed row is stamped with
load-time `now`. -/
def rowOfFields (now : Int) (tx : Transaction)
    (f : Nat × Nat × Nat × Nat × Nat × Nat × Nat) : TxRow :=
  let (stByte, hts, nc, txid, ntxid, mal, mas) := f
  let st := TxState.ofByte stByte
  let bh := wrapI64 hts
  let ts : Int := if st = .unconfirmed then bh else now
  ⟨tx, txid, ntxid, st, bh, ts, decide (nc ≠ 0), decide (mal ≠ 0), decide (mas ≠ 0)⟩

/-- Parse one tx record of the snapshot (the body of `load`'s loop). The
tx is parsed by the codec and the iterator then advances by
`satoshi_raw_size(tx)`, i.e. by the length of the re-encoding. -/
def parseRecord (now : Int) (data : List Nat) :
    Except DbError ((Nat × TxRow) × List Nat) :=
  match readByte data with
  | none => .error .Truncated
  | some (kind, d1) =>
    if kind ≠ serialTxByte then .error .UnknownRecord
    else
      match readHash d1 with
      | none => .error .Truncated
      | some (hash, d2) =>
        match decodeTx d2 with
        | none => .error .Truncated
        | some (tx, _) =>
          match readTail (d2.drop (encodeTx tx).length) with
          | none => .error .Truncated
          | some (f, d10) => .ok ((hash, rowOfFields now tx f), d10)

theorem readTail_shrink {d3 rest : List Nat}
    {f : Nat × Nat × Nat × Nat × Nat × Nat × Nat}
    (h : readTail d3 = some (f, rest)) : rest.length < d3.length := by
  simp only [readTail, Option.bind_eq_bind, Option.bind_eq_some] at h
  obtain ⟨⟨stByte, d4⟩, h4, ⟨hts, d5⟩, h5, ⟨nc, d6⟩, h6, ⟨txid, d7⟩, h7,
    ⟨ntxid, d8⟩, h8, ⟨mal, d9⟩, h9, ⟨mas, d10⟩, h10, heq⟩ := h
  injection heq with heq1
  injection heq1 with ha hb
  subst hb
  dsimp only at h5 h6 h7 h8 h9 h10
  have l4 := readByte_shrink h4
  have l5 := readU64_shrink h5
  have l6 := readByte_shrink h6
  have l7 := readHash_shrink h7
  have l8 := readHash_shrink h8
  have l9 := readByte_shrink h9
  have l10 := readByte_shrink h10
  dsimp only
  omega

theorem parseRecord_shrink {now : Int} {data : List Nat} {kv : Nat × TxRow}
    {rest : List Nat} (h : parseRecord now data = .ok (kv, rest)) :
    rest.length < data.length := by
  unfold parseRecord at h
  cases h1 : readByte data with
  | none => simp [h1] at h
  | some p1 =>
    obtain ⟨kind, d1⟩ := p1
    simp only [h1] at h
    have hlt1 : d1.length < data.length := readByte_shrink h1
    by_cases hk : kind ≠ serialTxByte
    · rw [if_pos hk] at h; exact absurd h (by simp)
    · rw [if_neg hk] at h
      cases h2 : readHash d1 with
      | none => simp [h2] at h
      | some p2 =>
        obtain ⟨hash, d2⟩ := p2
        simp only [h2] at h
        have hlt2 : d2.length ≤ d1.length := readHash_shrink h2
        cases h3 : decodeTx d2 with
        | none => simp [h3] at h
        | some p3 =>
          obtain ⟨tx, dX⟩ := p3
          simp only [h3] at h
          have hlt3 : (d2.drop (encodeTx tx).length).length ≤ d2.length := by
            simp [List.length_drop]
          cases h4 : readTail (d2.drop (encodeTx tx).length) with
          | none => simp [h4] at h
          | some p4 =>
            obtain ⟨f, d10⟩ := p4
            simp only [h4] at h
            simp only [Except.ok.injEq, Prod.mk.injEq] at h
            obtain ⟨h11, h12⟩ := h
            subst h12
            have := readTail_shrink h4
            omega

/-- The record loop of `TxDatabase::load`: `rows[hash] = row` until the
iterator reaches the end of the data. -/
def parseRecords (now : Int) (data : List Nat) (acc : List (Nat × TxRow)) :
    Except DbError (List (Nat × TxRow)) :=
  if hd : data.isEmpty then .ok acc
  else
    match h : parseRecord now data with
    | .error e => .error e
    | .ok (kv, rest) => parseRecords now rest (upsert acc kv.1 kv.2)
termination_by data.length
decreasing_by exact parseRecord_shrink h

/-- The parsing phase of `TxDatabase::load`: header, then records, into a
temporary table. A failed read throws `bc::end_of_stream`, reported as
`Truncated`. -/
def loadCore (data : List Nat) (now : Int) :
    Except DbError (Nat × List (Nat × TxRow)) :=
  match readU32 data with
  | none => .error .Truncated
  | some (magic, d1) =>
    if magic ≠ serialMagic then
      if magic = oldSerialMagic then .error .OutdatedFormat
      else .error .UnknownHeader
    else
      match readU64 d1 with
      | none => .error .Truncated
      | some (lastHeight, d2) =>
        match parseRecords now d2 [] with
        | .error e => .error e
        | .ok rows => .ok (lastHeight, rows)

/-- `TxDatabase::load`: on success atomically replace `rows_` and
`last_height_`; on any parse error the database is unchanged. -/
def loadDB (db : TxDatabase) (data : List Nat) (now : Int) :
    TxDatabase × Option DbError :=
  match loadCore data now with
  | .error e => (db, some e)
  | .ok (lh, rows) =>
    ({rows := rows, last_height := lh,
      unconfirmed_timeout := db.unconfirmed_timeout}, none)

/-! ## TxFilter: the double-spend safety predicate

`TxFilter::isSafe` is a memoized recursion over the transaction graph.
The C++ call stack becomes an explicit `fuel` argument (the recursion has
no cycle guard: on a cyclic graph the C++ overflows the stack, modelled by
`none` when the fuel runs out); the `visited_` map becomes a threaded
association list.
-/

/-- `visited_.find(txid)`. -/
def lookupMemo : List (Nat × Bool) → Nat → Option Bool
  | [], _ => none
  | kb :: rest, t => if kb.1 = t then some kb.2 else lookupMemo rest t

/-- The input loop of `TxFilter::isSafe`: an input hitting the
double-spend set, or an unsafe source transaction, makes the result
false. Recursive calls into `isSafe` are abstracted as `rec` (one stack
frame deeper). -/
def isSafeInputsGo (ds : List OutPoint)
    (rec : List (Nat × Bool) → Nat → Option (Bool × List (Nat × Bool))) :
    List (Nat × Bool) → List TxInput → Option (Bool × List (Nat × Bool))
  | memo, [] => some (true, memo)
  | memo, i :: rest =>
    if i.previous_output ∈ ds then some (false, memo)
    else
      match rec memo i.previous_output.hash with
      | none => none
      | some (false, memo2) => some (false, memo2)
      | some (true, memo2) => isSafeInputsGo ds rec memo2 rest

/-- `TxFilter::isSafe`. The C++ call stack becomes the structural `fuel`
argument; the memoized result is written on every return path, exactly at
the points the C++ assigns `visited_[txid]`. -/
def isSafeMemo (rows : List (Nat × TxRow)) (ds : List OutPoint) :
    Nat → List (Nat × Bool) → Nat → Option (Bool × List (Nat × Bool))
  | 0, _, _ => none
  | fuel + 1, memo, txid =>
    match lookupMemo memo txid with
    | some b => some (b, memo)
    | none =>
      match lookupRow rows txid with
      | none => some (true, (txid, true) :: memo)
      | some row =>
        if row.state = .confirmed then some (true, (txid, true) :: memo)
        else
          match isSafeInputsGo ds (isSafeMemo rows ds fuel) memo row.tx.inputs with
          | none => none
          | some (b, memo2) => some (b, (txid, b) :: memo2)

/-- The reference recursive definition of the safety predicate (spec
§4.2), as an inductive evaluation relation over the transaction graph.
`.inl txid` evaluates a transaction, `.inr inputs` evaluates the input
loop. -/
inductive SafeR (rows : List (Nat × TxRow)) (ds : List OutPoint) :
    Nat ⊕ List TxInput → Bool → Prop where
  | missing (txid : Nat) :
      lookupRow rows txid = none → SafeR rows ds (.inl txid) true
  | confirmedRow (txid : Nat) (row : TxRow) :
      lookupRow rows txid = some row → row.state = .confirmed →
      SafeR rows ds (.inl txid) true
  | unconfRow (txid : Nat) (row : TxRow) (b : Bool) :
      lookupRow rows txid = some row → row.state ≠ .confirmed →
      SafeR rows ds (.inr row.tx.inputs) b → SafeR rows ds (.inl txid) b
  | nilInputs : SafeR rows ds (.inr []) true
  | dsHit (i : TxInput) (rest : List TxInput) :
      i.previous_output ∈ ds → SafeR rows ds (.inr (i :: rest)) false
  | headUnsafe (i : TxInput) (rest : List TxInput) :
      i.previous_output ∉ ds →
      SafeR rows ds (.inl i.previous_output.hash) false →
      SafeR rows ds (.inr (i :: rest)) false
  | headSafe (i : TxInput) (rest : List TxInput) (b : Bool) :
      i.previous_output ∉ ds →
      SafeR rows ds (.inl i.previous_output.hash) true →
      SafeR rows ds (.inr rest) b → SafeR rows ds (.inr (i :: rest)) b

/-- A memo table is consistent when every cached answer agrees with the
reference relation. -/
def MemoConsistent (rows : List (Nat × TxRow)) (ds : List OutPoint)
    (memo : List (Nat × Bool)) : Prop :=
  ∀ t b, lookupMemo memo t = some b → SafeR rows ds (.inl t) b

/-! ## Association-list lemmas -/

theorem lookupRow_mapRows (rows : List (Nat × TxRow)) (f : Nat → TxRow → TxRow)
    (k : Nat) : lookupRow (mapRows rows f) k = (lookupRow rows k).map (f k) := by
  induction rows with
  | nil => rfl
  | cons kr rest ih =>
    by_cases hk : kr.1 = k
    · subst hk
      simp [mapRows, lookupRow]
    · simp only [mapRows, List.map_cons, lookupRow, hk, if_false] at ih ⊢
      simpa [mapRows] using ih

theorem lookupRow_append (l1 l2 : List (Nat × TxRow)) (k : Nat) :
    lookupRow (l1 ++ l2) k =
      match lookupRow l1 k with
      | some r => some r
      | none => lookupRow l2 k := by
  induction l1 with
  | nil => simp [lookupRow]
  | cons kr rest ih =>
    by_cases hk : kr.1 = k
    · simp [lookupRow, hk]
    · simpa [lookupRow, hk] using ih

theorem lookupRow_mem {rows : List (Nat × TxRow)} {k : Nat} {r : TxRow}
    (h : lookupRow rows k = some r) : (k, r) ∈ rows := by
  induction rows with
  | nil => simp [lookupRow] at h
  | cons kr rest ih =>
    by_cases hk : kr.1 = k
    · subst hk
      simp [lookupRow] at h
      subst h
      simp
    · simp only [lookupRow, hk, if_false] at h
      exact List.mem_cons_of_mem _ (ih h)

theorem lookupRow_eq_none {rows : List (Nat × TxRow)} {k : Nat}
    (h : lookupRow rows k = none) : ∀ r, (k, r) ∉ rows := by
  induction rows with
  | nil => simp
  | cons kr rest ih =>
    by_cases hk : kr.1 = k
    · simp [lookupRow, hk] at h
    · simp only [lookupRow, hk, if_false] at h
      intro r hr
      rcases List.mem_cons.1 hr with heq | hmem
      · exact hk (by rw [← heq])
      · exact ih h r hmem

theorem mem_lookupRow {rows : List (Nat × TxRow)} {k : Nat} {r : TxRow}
    (h : (k, r) ∈ rows) : ∃ r2, lookupRow rows k = some r2 := by
  cases he : lookupRow rows k with
  | some r2 => exact ⟨r2, rfl⟩
  | none => exact absurd h (lookupRow_eq_none he r)

/-! ## Spec-side reference definitions

Definitions in this section follow the specification's words, not the
source; they exist to be compared against the embedded code.
-/

/-- Modelled from the spec (§4.4): the fork detector's documented effect.
Find the greatest `block_height < height` among confirmed rows; if none
exists stop, otherwise set `need_check` on every confirmed row at exactly
that height. -/
def specCheckFork (rows : List (Nat × TxRow)) (height : Int) :
    List (Nat × TxRow) :=
  let below := (rows.filter fun kr =>
    decide (kr.2.state = .confirmed) && decide (kr.2.block_height < height)).map
      fun kr => kr.2.block_height
  match below.max? with
  | none => rows
  | some prev => mapRows rows fun _ r =>
      if r.state = .confirmed ∧ r.block_height = prev then
        {r with need_check := true}
      else r

/-- Modelled from the spec (§4.5 record format): classify the record
region of a snapshot. A record-kind byte other than 0x42 is an unknown
record; end-of-input inside a record is a truncation; a clean end of
input is no error. Structural on fuel so that it evaluates. -/
def specRecordClassifyFuel : Nat → List Nat → Option DbError
  | 0, data => if data.isEmpty then none else some .Truncated
  | fuel + 1, data =>
    if data.isEmpty then none
    else
      match readByte data with
      | none => some .Truncated
      | some (kind, d1) =>
        if kind ≠ serialTxByte then some .UnknownRecord
        else
          match readHash d1 with
          | none => some .Truncated
          | some (_, d2) =>
            match decodeTx d2 with
            | none => some .Truncated
            | some (tx, _) =>
              match readTail (d2.drop (encodeTx tx).length) with
              | none => some .Truncated
              | some (_, d10) => specRecordClassifyFuel fuel d10

/-- Entry point: a record consumes at least one byte, so `data.length`
recursion steps always suffice. -/
def specRecordClassify (data : List Nat) : Option DbError :=
  specRecordClassifyFuel data.length data

/-- Modelled from the spec (§4.5 versioning plus the header layout):
classify a whole snapshot. The magic `0x3eab61c3` is the outdated format;
any other magic than `0xfecdb763` is an unknown header; end-of-input in
the header or inside a record is a truncation. -/
def specLoadClassify (data : List Nat) : Option DbError :=
  match readU32 data with
  | none => some .Truncated
  | some (magic, d1) =>
    if magic = oldSerialMagic then some .OutdatedFormat
    else if magic ≠ serialMagic then some .UnknownHeader
    else
      match readU64 d1 with
      | none => some .Truncated
      | some (_, d2) => specRecordClassify d2

/-- The truncation condition exactly as claimed: end-of-input is reached
mid-record (the header was read in full). -/
def midRecordTrunc (data : List Nat) : Bool :=
  match readU32 data with
  | none => false
  | some (magic, d1) =>
    magic == serialMagic &&
      match readU64 d1 with
      | none => false
      | some (_, d2) => specRecordClassify d2 == some .Truncated

/-! ## Concrete fixtures

Two transactions that differ only in an input signature script: malleated
siblings (equal `ntxid`, distinct `txid`).
-/

/-- Sibling 1. -/
def txM1 : Transaction := ⟨[⟨⟨5, 0⟩, [1]⟩], [⟨50, [7]⟩]⟩

/-- Sibling 2: same outpoint and outputs, different input script. -/
def txM2 : Transaction := ⟨[⟨⟨5, 0⟩, [2]⟩], [⟨50, [7]⟩]⟩

/-- The shared ntxid of the two siblings. -/
def ntxN : Nat := makeNtxid txM1

/-! ## C10 -/

/-- C10: demoting an already-unconfirmed row. `unconfirmed(txid)` on a row
whose state is `unconfirmed` keeps the state, `malleated`,
`master_confirm`, `timestamp` and `tx` unchanged, unconditionally resets
`block_height` to 0 (erasing a `-1` sentinel), and modifies no other
key's row. -/
theorem c10_unconfirmed_demotion_resets_height (db : TxDatabase) (t : Nat)
    (r0 : TxRow) (hl : lookupRow db.rows t = some r0)
    (hs : r0.state = .unconfirmed) :
    ∃ r1, lookupRow (unconfirmedOp db t).rows t = some r1 ∧
      r1.state = .unconfirmed ∧
      r1.bMalleated = r0.bMalleated ∧
      r1.bMasterConfirm = r0.bMasterConfirm ∧
      r1.block_height = 0 ∧
      r1.timestamp = r0.timestamp ∧
      r1.tx = r0.tx ∧
      ∀ k, k ≠ t → lookupRow (unconfirmedOp db t).rows k = lookupRow db.rows k := by
  have hns : ¬ r0.state = TxState.confirmed := by rw [hs]; intro hc; cases hc
  simp only [unconfirmedOp, hl, hns, if_false, ite_false]
  refine ⟨⟨r0.tx, r0.txid, r0.ntxid, .unconfirmed, 0, r0.timestamp,
    r0.need_check, r0.bMalleated, r0.bMasterConfirm⟩,
    ?_, rfl, rfl, rfl, rfl, rfl, rfl, ?_⟩
  · rw [updateKey, lookupRow_mapRows, hl]
    simp
  · intro k hk
    rw [updateKey, lookupRow_mapRows]
    cases lookupRow db.rows k <;> simp [hk]

/-- Concrete database for the C10 witness: two malleated siblings, both
unconfirmed with the `-1` sentinel height; row 1 carries a stale
`master_confirm`. -/
def dbC10 : TxDatabase :=
  ⟨[(1, ⟨txM1, 1, 9, .unconfirmed, -1, 5, false, true, true⟩),
    (2, ⟨txM2, 2, 9, .unconfirmed, -1, 6, false, true, false⟩)], 33, 60⟩

/-- Witness for C10 at `dbC10`, key 1. -/
theorem c10_witness :
    ∃ r1, lookupRow (unconfirmedOp dbC10 1).rows 1 = some r1 ∧
      r1.state = .unconfirmed ∧
      r1.bMalleated = (⟨txM1, 1, 9, .unconfirmed, -1, 5, false, true, true⟩ : TxRow).bMalleated ∧
      r1.bMasterConfirm = (⟨txM1, 1, 9, .unconfirmed, -1, 5, false, true, true⟩ : TxRow).bMasterConfirm ∧
      r1.block_height = 0 ∧
      r1.timestamp = (⟨txM1, 1, 9, .unconfirmed, -1, 5, false, true, true⟩ : TxRow).timestamp ∧
      r1.tx = (⟨txM1, 1, 9, .unconfirmed, -1, 5, false, true, true⟩ : TxRow).tx ∧
      ∀ k, k ≠ 1 → lookupRow (unconfirmedOp dbC10 1).rows k = lookupRow dbC10.rows k :=
  c10_unconfirmed_demotion_resets_height dbC10 1
    ⟨txM1, 1, 9, .unconfirmed, -1, 5, false, true, true⟩ (by decide) (by decide)

/-! ## C2 -/

/-- The C2 scenario: insert a transaction, confirm it at height 95, then
`at_height(100)`. -/
def dbC2 : TxDatabase :=
  atHeight (confirmedOp (insertTx (mkTxDatabase 60) 0 txM1).2 (txidOf txM1) 95) 100

set_option maxRecDepth 100000

/-- C2 (code bug): after `confirmed(A, 95)` and `at_height(100)`, the
fork detector leaves `need_check = false` on A (its marking loop mutates
a by-value copy of each row), so `foreach_forked` yields nothing — while
the detector's documented effect (`specCheckFork`) would mark A and make
`foreach_forked` yield A's txid. -/
theorem c2_check_fork_marks_nothing :
    foreachForked dbC2 = [] ∧
    (lookupRow dbC2.rows (txidOf txM1)).map TxRow.need_check = some false ∧
    (lookupRow dbC2.rows (txidOf txM1)).map TxRow.state = some .confirmed ∧
    (lookupRow dbC2.rows (txidOf txM1)).map TxRow.block_height = some 95 ∧
    dbC2.last_height = 100 ∧
    foreachForked {dbC2 with rows := specCheckFork dbC2.rows 100} = [txidOf txM1] := by
  decide

/-! ## C3 -/

/-- A sequence in which both malleated siblings are confirmed in turn. -/
def dbC3 : TxDatabase :=
  applyOps (mkTxDatabase 60)
    [.ins txM1 10, .ins txM2 11, .conf (txidOf txM1) 500, .conf (txidOf txM2) 500]

/-- C3 counterexample: after `insert M1; insert M2; confirmed(M1, 500);
confirmed(M2, 500)` — a sequence of the operations the claim quantifies
over — both rows of the ntxid cluster carry `master_confirm = true`:
`confirmed` never clears a sibling's old master flag. -/
theorem c3_two_masters_counterexample :
    ((ntxidLookupAll dbC3 ntxN).filter fun r => r.bMasterConfirm).length = 2 ∧
    ¬ ((ntxidLookupAll dbC3 ntxN).filter fun r => r.bMasterConfirm).length ≤ 1 := by
  decide

/-! ## C4 -/

theorem ntxidHeight_fold_spec (l : List TxRow) (seed : Int) :
    seed ≤ l.foldl
      (fun h r => if r.state = .confirmed ∧ h < r.block_height then r.block_height else h)
      seed ∧
    (l.foldl
      (fun h r => if r.state = .confirmed ∧ h < r.block_height then r.block_height else h)
      seed = seed ∨
      ∃ r ∈ l, r.state = .confirmed ∧ r.block_height = l.foldl
        (fun h r => if r.state = .confirmed ∧ h < r.block_height then r.block_height else h)
        seed) ∧
    (∀ r ∈ l, r.state = .confirmed → r.block_height ≤ l.foldl
      (fun h r => if r.state = .confirmed ∧ h < r.block_height then r.block_height else h)
      seed) := by
  induction l generalizing seed with
  | nil => simp
  | cons r rest ih =>
    simp only [List.foldl_cons]
    by_cases hcond : r.state = .confirmed ∧ seed < r.block_height
    · rw [if_pos hcond]
      obtain ⟨ih1, ih2, ih3⟩ := ih r.block_height
      refine ⟨by omega, ?_, ?_⟩
      · rcases ih2 with h2 | ⟨r2, hr2, hc2, hb2⟩
        · exact Or.inr ⟨r, by simp, hcond.1, h2.symm⟩
        · exact Or.inr ⟨r2, by simp [hr2], hc2, hb2⟩
      · intro r2 hr2 hc2
        rcases List.mem_cons.1 hr2 with heq | hmem
        · subst heq
          omega
        · exact ih3 r2 hmem hc2
    · rw [if_neg hcond]
      obtain ⟨ih1, ih2, ih3⟩ := ih seed
      refine ⟨ih1, ?_, ?_⟩
      · rcases ih2 with h2 | ⟨r2, hr2, hc2, hb2⟩
        · exact Or.inl h2
        · exact Or.inr ⟨r2, by simp [hr2], hc2, hb2⟩
      · intro r2 hr2 hc2
        rcases List.mem_cons.1 hr2 with heq | hmem
        · subst heq
          have hle : r2.block_height ≤ seed := by
            by_contra hlt
            exact hcond ⟨hc2, by omega⟩
          omega
        · exact ih3 r2 hmem hc2

/-- C4 amended: `ntxid_height` fails `NotInDatabase` iff the cluster is
empty; otherwise it returns `v` where `v = -1` when the cluster has more
than one row and every confirmed row's `block_height` is at most 0 (in
particular when no row is confirmed), and otherwise `v` is the maximum of
0 and the confirmed rows' `block_height`s (0 ≤ v, v bounds every confirmed
row's height, and v is 0 or attained by a confirmed row). -/
theorem c4_ntxid_height_characterization (db : TxDatabase) (n : Nat) :
    (ntxidHeight db n = .error .NotInDatabase ↔ ntxidLookupAll db n = []) ∧
    (ntxidLookupAll db n ≠ [] → ∃ v, ntxidHeight db n = .ok v ∧
      ((1 < (ntxidLookupAll db n).length ∧
          ∀ r ∈ ntxidLookupAll db n, r.state = .confirmed → r.block_height ≤ 0) →
        v = -1) ∧
      (¬(1 < (ntxidLookupAll db n).length ∧
          ∀ r ∈ ntxidLookupAll db n, r.state = .confirmed → r.block_height ≤ 0) →
        0 ≤ v ∧
        (∀ r ∈ ntxidLookupAll db n, r.state = .confirmed → r.block_height ≤ v) ∧
        (v = 0 ∨ ∃ r ∈ ntxidLookupAll db n, r.state = .confirmed ∧ r.block_height = v))) := by
  obtain ⟨hf1, hf2, hf3⟩ := ntxidHeight_fold_spec (ntxidLookupAll db n) 0
  by_cases hemp : ntxidLookupAll db n = []
  · constructor
    · simp [ntxidHeight, hemp]
    · intro h
      exact absurd hemp h
  · have hne : ¬ (ntxidLookupAll db n).isEmpty := by
      simpa [List.isEmpty_iff] using hemp
    constructor
    · simp [ntxidHeight, hne, hemp]
    · intro _
      set m := (ntxidLookupAll db n).foldl
        (fun h r => if r.state = .confirmed ∧ h < r.block_height then r.block_height else h)
        (0 : Int) with hm
      have hmzero : m = 0 ↔
          ∀ r ∈ ntxidLookupAll db n, r.state = .confirmed → r.block_height ≤ 0 := by
        constructor
        · intro h0 r hr hc
          have := hf3 r hr hc
          omega
        · intro hall
          rcases hf2 with h | ⟨r, hr, hc, hb⟩
          · omega
          · have := hall r hr hc
            omega
      refine ⟨if 1 < (ntxidLookupAll db n).length ∧ m = 0 then -1 else m, ?_, ?_, ?_⟩
      · simp only [ntxidHeight, hne, if_false, ite_false, Bool.false_eq_true, hm]
      · intro ⟨hlen, hall⟩
        rw [if_pos ⟨hlen, hmzero.2 hall⟩]
      · intro hnot
        have hcond : ¬(1 < (ntxidLookupAll db n).length ∧ m = 0) := by
          intro ⟨hlen, h0⟩
          exact hnot ⟨hlen, hmzero.1 h0⟩
        rw [if_neg hcond]
        exact ⟨hf1, hf3, hf2⟩

/-- A two-row cluster confirmed at height 0 (reachable:
`insert M1; insert M2; confirmed(M1, 0)` promotes the sibling too). -/
def dbC4 : TxDatabase :=
  confirmedOp (applyOps (mkTxDatabase 60) [.ins txM1 10, .ins txM2 11]) (txidOf txM1) 0

/-- C4 counterexample: in `dbC4` every cluster row is confirmed with
`block_height = 0`, so the claim's value — the maximum `block_height`
over confirmed rows — is 0, but the code returns the sentinel -1 (its
`1 < size && !height` test fires even though confirmed rows exist). -/
theorem c4_zero_height_counterexample :
    ntxidHeight dbC4 ntxN = .ok (-1) ∧
    ntxidLookupAll dbC4 ntxN ≠ [] ∧
    (∀ r ∈ ntxidLookupAll dbC4 ntxN, r.state = .confirmed ∧ r.block_height = 0) ∧
    ntxidHeight dbC4 ntxN ≠ .ok 0 := by
  decide

/-! ## C5 -/

/-- The cluster rows `ntxid_lookup` actually examines: every row up to
and including the first row with `master_confirm` set (all rows when none
is marked). -/
def scannedPrefix (c : List TxRow) : List TxRow :=
  c.takeWhile (fun r => !r.bMasterConfirm) ++
    (c.dropWhile (fun r => !r.bMasterConfirm)).take 1

/-- The candidate tx kept by the scan over `l`, starting from a
previously kept candidate `acc`: the tx of the last confirmed row of `l`
if any, else `acc` if set, else the tx of the first row of `l`. -/
def specSelectAcc (l : List TxRow) (acc : Option Transaction) :
    Option Transaction :=
  match (l.filter fun r => decide (r.state = .confirmed)).getLast? with
  | some r => some r.tx
  | none =>
    match acc with
    | some t => some t
    | none => l.head?.map fun r => r.tx

theorem getLast?_cons_form {α : Type} (x : α) (xs : List α) :
    (x :: xs).getLast? =
      match xs.getLast? with
      | some y => some y
      | none => some x := by
  cases xs with
  | nil => rfl
  | cons y ys =>
    rw [List.getLast?_cons_cons]
    cases he : (y :: ys).getLast? with
    | some z => rfl
    | none =>
      rw [List.getLast?_eq_none_iff] at he
      cases he
theorem specSelectAcc_cons (r : TxRow) (l : List TxRow)
    (acc : Option Transaction) :
    specSelectAcc (r :: l) acc = specSelectAcc l
      (match acc with
       | none => some r.tx
       | some t => if r.state = .confirmed then some r.tx else some t) := by
  by_cases hc : r.state = .confirmed
  · have hf : (r :: l).filter (fun r => decide (r.state = .confirmed)) =
        r :: l.filter (fun r => decide (r.state = .confirmed)) := by
      simp [hc]
    rw [specSelectAcc.eq_def, specSelectAcc.eq_def, hf, getLast?_cons_form]
    cases hgl : (l.filter fun r => decide (r.state = .confirmed)).getLast? with
    | some z => rfl
    | none => cases acc <;> simp [hc]
  · have hf : (r :: l).filter (fun r => decide (r.state = .confirmed)) =
        l.filter (fun r => decide (r.state = .confirmed)) := by
      simp [hc]
    rw [specSelectAcc.eq_def, specSelectAcc.eq_def, hf]
    cases hgl : (l.filter fun r => decide (r.state = .confirmed)).getLast? with
    | some z => rfl
    | none => cases acc <;> simp [hc]

theorem ntxidLookupGo_eq (c : List TxRow) (acc : Option Transaction) :
    ntxidLookupGo c acc = specSelectAcc (scannedPrefix c) acc := by
  induction c generalizing acc with
  | nil => cases acc <;> simp [ntxidLookupGo, scannedPrefix, specSelectAcc]
  | cons r rest ih =>
    by_cases hm : r.bMasterConfirm
    · have hpre : scannedPrefix (r :: rest) = [r] := by
        simp [scannedPrefix, hm]
      rw [hpre]
      cases acc with
      | none =>
        by_cases hc : r.state = .confirmed <;>
          simp [ntxidLookupGo, hm, specSelectAcc, hc]
      | some t =>
        by_cases hc : r.state = .confirmed <;>
          simp [ntxidLookupGo, hm, specSelectAcc, hc]
    · have hpre : scannedPrefix (r :: rest) = r :: scannedPrefix rest := by
        simp [scannedPrefix, hm, List.takeWhile_cons_of_pos, List.dropWhile_cons_of_pos]
      rw [hpre, specSelectAcc_cons]
      cases acc with
      | none => simpa [ntxidLookupGo, hm] using ih _
      | some t => simpa [ntxidLookupGo, hm] using ih _

theorem scannedPrefix_sublist (c : List TxRow) : (scannedPrefix c).Sublist c := by
  conv_rhs => rw [← List.takeWhile_append_dropWhile
    (fun r => !r.bMasterConfirm) c]
  exact (List.take_sublist 1 _).append_left _

theorem specSelectAcc_none_attained (l : List TxRow) (hne : l ≠ []) :
    ∃ r ∈ l, specSelectAcc l none = some r.tx := by
  rw [specSelectAcc]
  cases hgl : (l.filter fun r => decide (r.state = .confirmed)).getLast? with
  | some z =>
    refine ⟨z, ?_, rfl⟩
    exact (List.mem_filter.1 (List.mem_of_getLast?_eq_some hgl)).1
  | none =>
    cases l with
    | nil => exact absurd rfl hne
    | cons r rest => exact ⟨r, by simp, rfl⟩

/-- C5 amended: `ntxid_lookup` scans the cluster rows in row order up to
and including the first row with `master_confirm` (all rows when none is
marked); it returns the tx of the last confirmed row among those scanned,
else the tx of the first scanned row, and absence exactly when the
cluster is empty. In particular a master row's own tx is returned when
that row is confirmed or first in the cluster, but an unconfirmed master
row later in the scan yields the earlier candidate instead; the returned
tx always belongs to some row of the cluster. -/
theorem c5_ntxid_lookup_characterization (db : TxDatabase) (n : Nat) :
    ntxidLookup db n = specSelectAcc (scannedPrefix (ntxidLookupAll db n)) none ∧
    (ntxidLookup db n = none ↔ ntxidLookupAll db n = []) ∧
    (ntxidLookupAll db n ≠ [] →
      ∃ r ∈ ntxidLookupAll db n, ntxidLookup db n = some r.tx) := by
  have hEq : ntxidLookup db n =
      specSelectAcc (scannedPrefix (ntxidLookupAll db n)) none :=
    ntxidLookupGo_eq (ntxidLookupAll db n) none
  have hmem : ntxidLookupAll db n ≠ [] →
      ∃ r ∈ ntxidLookupAll db n, ntxidLookup db n = some r.tx := by
    intro hne
    have hpne : scannedPrefix (ntxidLookupAll db n) ≠ [] := by
      cases hc : ntxidLookupAll db n with
      | nil => exact absurd hc hne
      | cons r rest =>
        rw [scannedPrefix]
        by_cases hm : r.bMasterConfirm <;> simp [hm]
    obtain ⟨r, hr, hsel⟩ :=
      specSelectAcc_none_attained (scannedPrefix (ntxidLookupAll db n)) hpne
    exact ⟨r, (scannedPrefix_sublist _).mem hr, hEq.trans hsel⟩
  refine ⟨hEq, ⟨?_, ?_⟩, hmem⟩
  · intro hnone
    by_contra hne
    obtain ⟨r, _, hsome⟩ := hmem hne
    rw [hnone] at hsome
    cases hsome
  · intro hnil
    rw [hEq]
    simp [hnil, scannedPrefix, specSelectAcc]

/-- A cluster whose only `master_confirm` row is unconfirmed and second
in row order (reachable: `insert M1; insert M2; confirmed(M2, 500);
unconfirmed(M2)` — the demotion keeps M2's master flag). -/
def dbC5 : TxDatabase :=
  unconfirmedOp
    (confirmedOp (applyOps (mkTxDatabase 60) [.ins txM1 10, .ins txM2 11])
      (txidOf txM2) 500)
    (txidOf txM2)

/-- C5 counterexample: in `dbC5` the cluster's unique master row holds
`txM2`, yet `ntxid_lookup` returns `txM1` — the master row is unconfirmed
and not first, so the scan keeps the earlier candidate. -/
theorem c5_unconfirmed_master_counterexample :
    ntxidLookup dbC5 ntxN = some txM1 ∧
    (∃ r ∈ ntxidLookupAll dbC5 ntxN, r.bMasterConfirm) ∧
    (∀ r ∈ ntxidLookupAll dbC5 ntxN, r.bMasterConfirm → r.tx = txM2) ∧
    txM1 ≠ txM2 := by
  decide

/-- Witness for C5 at `dbC5`. -/
theorem c5_witness :
    ntxidLookup dbC5 ntxN =
      specSelectAcc (scannedPrefix (ntxidLookupAll dbC5 ntxN)) none ∧
    ∃ r ∈ ntxidLookupAll dbC5 ntxN, ntxidLookup dbC5 ntxN = some r.tx :=
  ⟨(c5_ntxid_lookup_characterization dbC5 ntxN).1,
   (c5_ntxid_lookup_characterization dbC5 ntxN).2.2 (by decide)⟩

/-- Witness for C4 at `dbC4` (the hypotheses of both implications are
discharged by computation). -/
theorem c4_witness : ∃ v, ntxidHeight dbC4 ntxN = .ok v ∧ v = -1 := by
  obtain ⟨v, hv, himp, _⟩ := (c4_ntxid_height_characterization dbC4 ntxN).2 (by decide)
  exact ⟨v, hv, himp (by decide)⟩

/-! ## C3 (amended) -/

/-- A sequence of `insert` calls. -/
def insertAll (db : TxDatabase) (l : List (Transaction × Int)) : TxDatabase :=
  l.foldl (fun db p => (insertTx db p.2 p.1).2) db

theorem keys_mapRows (rows : List (Nat × TxRow)) (f : Nat → TxRow → TxRow) :
    (mapRows rows f).map Prod.fst = rows.map Prod.fst := by
  simp only [mapRows, List.map_map]
  rfl

theorem mem_mapRows {rows : List (Nat × TxRow)} {f : Nat → TxRow → TxRow}
    {kr2 : Nat × TxRow} (h : kr2 ∈ mapRows rows f) :
    ∃ kr ∈ rows, kr2 = (kr.1, f kr.1 kr.2) := by
  obtain ⟨kr, hkr, heq⟩ := List.mem_map.1 h
  exact ⟨kr, hkr, heq.symm⟩

theorem mem_mapRows_of_mem {rows : List (Nat × TxRow)} {f : Nat → TxRow → TxRow}
    {kr : Nat × TxRow} (h : kr ∈ rows) : (kr.1, f kr.1 kr.2) ∈ mapRows rows f :=
  List.mem_map.2 ⟨kr, h, rfl⟩

theorem lookupRow_none_not_mem_keys {rows : List (Nat × TxRow)} {k : Nat}
    (h : lookupRow rows k = none) : k ∉ rows.map Prod.fst := by
  intro hmem
  obtain ⟨kr, hkr, hk⟩ := List.mem_map.1 hmem
  have hkr2 : (k, kr.2) ∈ rows := by
    have heta : kr = (k, kr.2) := by rw [← hk]
    rw [← heta]
    exact hkr
  exact lookupRow_eq_none h kr.2 hkr2

theorem insertTx_no_masters {db : TxDatabase} {now : Int} {tx : Transaction}
    (h : ∀ kr ∈ db.rows, kr.2.bMasterConfirm = false) :
    ∀ kr ∈ (insertTx db now tx).2.rows, kr.2.bMasterConfirm = false := by
  intro kr hkr
  simp only [insertTx] at hkr
  cases hl : lookupRow db.rows (txidOf tx) with
  | some r0 =>
    rw [hl] at hkr
    exact h kr hkr
  | none =>
    rw [hl] at hkr
    simp only at hkr
    rcases List.mem_append.1 hkr with hin | hnew
    · obtain ⟨kr0, hkr0, heq⟩ := mem_mapRows hin
      rw [heq]
      have hm0 := h kr0 hkr0
      dsimp only
      split <;> simpa using hm0
    · simp only [List.mem_singleton] at hnew
      rw [hnew]

theorem insertTx_keys_nodup {db : TxDatabase} {now : Int} {tx : Transaction}
    (h : (db.rows.map Prod.fst).Nodup) :
    ((insertTx db now tx).2.rows.map Prod.fst).Nodup := by
  simp only [insertTx]
  cases hl : lookupRow db.rows (txidOf tx) with
  | some r0 => exact h
  | none =>
    simp only [List.map_append, keys_mapRows, List.map_cons, List.map_nil]
    rw [List.nodup_append]
    refine ⟨h, by simp, ?_⟩
    intro a ha hb
    simp only [List.mem_singleton] at hb
    rw [hb] at ha
    exact lookupRow_none_not_mem_keys hl ha

theorem insertAll_no_masters (l : List (Transaction × Int)) (db : TxDatabase)
    (h : ∀ kr ∈ db.rows, kr.2.bMasterConfirm = false) :
    ∀ kr ∈ (insertAll db l).rows, kr.2.bMasterConfirm = false := by
  induction l generalizing db with
  | nil => exact h
  | cons p rest ih => exact ih _ (insertTx_no_masters h)

theorem insertAll_keys_nodup (l : List (Transaction × Int)) (db : TxDatabase)
    (h : (db.rows.map Prod.fst).Nodup) :
    ((insertAll db l).rows.map Prod.fst).Nodup := by
  induction l generalizing db with
  | nil => exact h
  | cons p rest ih => exact ih _ (insertTx_keys_nodup h)

theorem mapRows_masters_bound {rows : List (Nat × TxRow)}
    {f : Nat → TxRow → TxRow} {t : Nat}
    (hrows : ∀ kr ∈ rows, kr.2.bMasterConfirm = true → kr.1 = t)
    (hf : ∀ k r, r.bMasterConfirm = false → (f k r).bMasterConfirm = true → k = t) :
    ∀ kr ∈ mapRows rows f, kr.2.bMasterConfirm = true → kr.1 = t := by
  intro kr2 h2 hm
  obtain ⟨kr, hkr, heq⟩ := mem_mapRows h2
  rw [heq] at hm ⊢
  dsimp only at hm ⊢
  cases hmc : kr.2.bMasterConfirm with
  | true => exact hrows kr hkr hmc
  | false => exact hf kr.1 kr.2 hmc hm

theorem confirmedOp_masters_only_at (db : TxDatabase) (t : Nat) (h : Int)
    (hnm : ∀ kr ∈ db.rows, kr.2.bMasterConfirm = false) :
    ∀ kr ∈ (confirmedOp db t h).rows, kr.2.bMasterConfirm = true → kr.1 = t := by
  have h0 : ∀ kr ∈ db.rows, kr.2.bMasterConfirm = true → kr.1 = t := by
    intro kr hkr hm
    rw [hnm kr hkr] at hm
    cases hm
  simp only [confirmedOp]
  cases hl : lookupRow db.rows t with
  | none => exact h0
  | some row0 =>
    simp only [hl, checkFork, ite_self]
    have step1 : ∀ kr ∈ updateKey db.rows t fun r =>
        {r with state := .confirmed, block_height := h, bMasterConfirm := true},
        kr.2.bMasterConfirm = true → kr.1 = t := by
      rw [updateKey]
      refine mapRows_masters_bound h0 ?_
      intro k r hrf hft
      by_cases hk : k = t
      · exact hk
      · rw [if_neg hk] at hft
        rw [hrf] at hft
        cases hft
    have step2 : ∀ kr ∈ mapRows (updateKey db.rows t fun r =>
        {r with state := .confirmed, block_height := h, bMasterConfirm := true})
        fun _ r => if r.ntxid = row0.ntxid ∧ r.txid ≠ t then
          {r with block_height := h, state := .confirmed, bMalleated := true}
        else r,
        kr.2.bMasterConfirm = true → kr.1 = t := by
      refine mapRows_masters_bound step1 ?_
      intro k r hrf hft
      split at hft
      · rw [hrf] at hft
        cases hft
      · rw [hrf] at hft
        cases hft
    split
    · rw [updateKey]
      refine mapRows_masters_bound step2 ?_
      intro k r hrf hft
      by_cases hk : k = t
      · exact hk
      · rw [if_neg hk] at hft
        rw [hrf] at hft
        cases hft
    · exact step2

theorem masters_count_le_one (rows : List (Nat × TxRow)) (t : Nat) (n : Nat)
    (hnd : (rows.map Prod.fst).Nodup)
    (hm : ∀ kr ∈ rows, kr.2.bMasterConfirm = true → kr.1 = t) :
    (((rows.filter fun kr => decide (kr.2.ntxid = n)).map Prod.snd).filter
      fun r => r.bMasterConfirm).length ≤ 1 := by
  induction rows with
  | nil => simp
  | cons kr rest ih =>
    simp only [List.map_cons, List.nodup_cons] at hnd
    obtain ⟨hknotin, hndrest⟩ := hnd
    have hmrest : ∀ kr2 ∈ rest, kr2.2.bMasterConfirm = true → kr2.1 = t :=
      fun kr2 h2 => hm kr2 (List.mem_cons_of_mem _ h2)
    by_cases hsel : kr.2.ntxid = n
    · rw [List.filter_cons_of_pos (by simpa using hsel), List.map_cons]
      cases hmc : kr.2.bMasterConfirm with
      | false =>
        rw [List.filter_cons_of_neg (by simp [hmc])]
        exact ih hndrest hmrest
      | true =>
        rw [List.filter_cons_of_pos (by simp [hmc])]
        have hkey : kr.1 = t := hm kr (by simp) hmc
        have hzero : ((rest.filter fun kr => decide (kr.2.ntxid = n)).map
            Prod.snd).filter (fun r => r.bMasterConfirm) = [] := by
          rw [List.filter_eq_nil_iff]
          intro r hr
          obtain ⟨kr2, hkr2, hsnd⟩ := List.mem_map.1 hr
          have hkr2mem := List.mem_of_mem_filter hkr2
          intro hrb
          have hkey2 : kr2.1 = t := hmrest kr2 hkr2mem (by rw [hsnd]; exact hrb)
          apply hknotin
          rw [hkey, ← hkey2]
          exact List.mem_map.2 ⟨kr2, hkr2mem, rfl⟩
        simp [hzero]
    · rw [List.filter_cons_of_neg (by simpa using hsel)]
      exact ih hndrest hmrest

/-- The S3 database: two inserted siblings, then `confirmed(M1, 500)`. -/
def dbS3 : TxDatabase :=
  confirmedOp (insertAll (mkTxDatabase 60) [(txM1, 10), (txM2, 11)]) (txidOf txM1) 500

/-- C3 amended: after any sequence of `insert` operations followed by a
single `confirmed` call, at most one row in each ntxid cluster has
`master_confirm = true` (the general claim fails once `confirmed` is
invoked on two siblings in turn — see the counterexample). In particular,
in the two-row cluster {M1, M2}, `confirmed(M1.txid, 500)` leaves both
rows confirmed at height 500 with only M1 as master. -/
theorem c3_single_master_after_single_confirm :
    (∀ (timeout : Nat) (l : List (Transaction × Int)) (t : Nat) (h : Int) (n : Nat),
      ((ntxidLookupAll (confirmedOp (insertAll (mkTxDatabase timeout) l) t h) n).filter
        fun r => r.bMasterConfirm).length ≤ 1) ∧
    (∀ r ∈ ntxidLookupAll dbS3 ntxN,
      r.state = .confirmed ∧ r.block_height = 500 ∧
        (r.bMasterConfirm = true ↔ r.txid = txidOf txM1)) ∧
    (ntxidLookupAll dbS3 ntxN).length = 2 := by
  refine ⟨?_, by decide, by decide⟩
  intro timeout l t h n
  have hnm : ∀ kr ∈ (insertAll (mkTxDatabase timeout) l).rows,
      kr.2.bMasterConfirm = false :=
    insertAll_no_masters l _ (by simp [mkTxDatabase])
  have hnd : (((insertAll (mkTxDatabase timeout) l).rows.map Prod.fst)).Nodup :=
    insertAll_keys_nodup l _ (by simp [mkTxDatabase])
  have hmt := confirmedOp_masters_only_at _ t h hnm
  have hndc : (((confirmedOp (insertAll (mkTxDatabase timeout) l) t h).rows.map
      Prod.fst)).Nodup := by
    simp only [confirmedOp]
    cases hl : lookupRow (insertAll (mkTxDatabase timeout) l).rows t with
    | none => exact hnd
    | some row0 =>
      simp only [hl, checkFork, ite_self]
      split <;> simp only [updateKey, keys_mapRows] <;> exact hnd
  exact masters_count_le_one _ t n hndc hmt

/-! ## C6 -/

theorem inherit_fold_cases (rows : List (Nat × TxRow)) (n t : Nat)
    (seed : TxState × Int × Bool) :
    (rows.foldl
      (fun (acc : TxState × Int × Bool) kr =>
        if kr.2.ntxid = n ∧ kr.2.txid ≠ t then (kr.2.state, kr.2.block_height, true)
        else acc) seed = seed ∧
      ∀ kr ∈ rows, ¬(kr.2.ntxid = n ∧ kr.2.txid ≠ t)) ∨
    (∃ kr ∈ rows, (kr.2.ntxid = n ∧ kr.2.txid ≠ t) ∧
      rows.foldl
        (fun (acc : TxState × Int × Bool) kr =>
          if kr.2.ntxid = n ∧ kr.2.txid ≠ t then (kr.2.state, kr.2.block_height, true)
          else acc) seed = (kr.2.state, kr.2.block_height, true)) := by
  induction rows generalizing seed with
  | nil => exact Or.inl ⟨rfl, by simp⟩
  | cons kr rest ih =>
    simp only [List.foldl_cons]
    by_cases hc : kr.2.ntxid = n ∧ kr.2.txid ≠ t
    · rw [if_pos hc]
      rcases ih (kr.2.state, kr.2.block_height, true) with ⟨heq, hnone⟩ | ⟨kr2, hm, hc2, heq⟩
      · exact Or.inr ⟨kr, by simp, hc, heq⟩
      · exact Or.inr ⟨kr2, by simp [hm], hc2, heq⟩
    · rw [if_neg hc]
      rcases ih seed with ⟨heq, hnone⟩ | ⟨kr2, hm, hc2, heq⟩
      · refine Or.inl ⟨heq, ?_⟩
        intro kr2 hkr2
        rcases List.mem_cons.1 hkr2 with h | h
        · rw [h]; exact hc
        · exact hnone kr2 h
      · exact Or.inr ⟨kr2, by simp [hm], hc2, heq⟩

/-- C6: `insert(tx)` creates a new row and returns true iff no row with
`txid(tx)` exists, and otherwise is a no-op returning false; on creation
the new row carries `tx`, its two identifiers, `timestamp = now`, clear
`need_check`/`master_confirm`, inherits `state`/`block_height` from an
existing row of the ntxid cluster with a different txid (defaulting to
unconfirmed at height 0 in a fresh cluster) and is marked `malleated`
exactly when such a cluster row exists; every such cluster row is marked
`malleated`, every other row is untouched, the row count grows by one,
and a second `insert` of the same transaction returns false leaving the
database unchanged. -/
theorem c6_insert_semantics (db : TxDatabase) (now now2 : Int) (tx : Transaction) :
    ((insertTx db now tx).1 = true ↔ lookupRow db.rows (txidOf tx) = none) ∧
    (lookupRow db.rows (txidOf tx) ≠ none → insertTx db now tx = (false, db)) ∧
    (lookupRow db.rows (txidOf tx) = none →
      (∃ r, lookupRow (insertTx db now tx).2.rows (txidOf tx) = some r ∧
        r.tx = tx ∧ r.txid = txidOf tx ∧ r.ntxid = makeNtxid tx ∧
        r.timestamp = now ∧ r.need_check = false ∧ r.bMasterConfirm = false ∧
        ((∀ kr ∈ db.rows, ¬(kr.2.ntxid = makeNtxid tx ∧ kr.2.txid ≠ txidOf tx)) →
          r.state = .unconfirmed ∧ r.block_height = 0 ∧ r.bMalleated = false) ∧
        ((∃ kr ∈ db.rows, kr.2.ntxid = makeNtxid tx ∧ kr.2.txid ≠ txidOf tx) →
          r.bMalleated = true ∧ ∃ kr ∈ db.rows,
            (kr.2.ntxid = makeNtxid tx ∧ kr.2.txid ≠ txidOf tx) ∧
            r.state = kr.2.state ∧ r.block_height = kr.2.block_height)) ∧
      (∀ kr ∈ db.rows, (kr.2.ntxid = makeNtxid tx ∧ kr.2.txid ≠ txidOf tx) →
        (kr.1, {kr.2 with bMalleated := true}) ∈ (insertTx db now tx).2.rows) ∧
      (∀ kr ∈ db.rows, ¬(kr.2.ntxid = makeNtxid tx ∧ kr.2.txid ≠ txidOf tx) →
        kr ∈ (insertTx db now tx).2.rows) ∧
      (insertTx db now tx).2.rows.length = db.rows.length + 1) ∧
    ((insertTx (insertTx db now tx).2 now2 tx).1 = false ∧
      (insertTx (insertTx db now tx).2 now2 tx).2 = (insertTx db now tx).2) := by
  cases hl : lookupRow db.rows (txidOf tx) with
  | some r0 =>
    have hins : insertTx db now tx = (false, db) := by
      simp only [insertTx, hl]
    refine ⟨?_, fun _ => hins, ?_, ?_⟩
    · rw [hins]
      simp
    · intro hc
      cases hc
    · rw [hins]
      simp [insertTx, hl]
  | none =>
    have hrows : (insertTx db now tx).2.rows =
        mapRows db.rows (fun _ r =>
          if r.ntxid = makeNtxid tx ∧ r.txid ≠ txidOf tx then
            {r with bMalleated := true} else r) ++
        [(txidOf tx,
          ⟨tx, txidOf tx, makeNtxid tx,
            (db.rows.foldl
              (fun (acc : TxState × Int × Bool) kr =>
                if kr.2.ntxid = makeNtxid tx ∧ kr.2.txid ≠ txidOf tx then
                  (kr.2.state, kr.2.block_height, true)
                else acc) (.unconfirmed, 0, false)).1,
            (db.rows.foldl
              (fun (acc : TxState × Int × Bool) kr =>
                if kr.2.ntxid = makeNtxid tx ∧ kr.2.txid ≠ txidOf tx then
                  (kr.2.state, kr.2.block_height, true)
                else acc) (.unconfirmed, 0, false)).2.1,
            now, false,
            (db.rows.foldl
              (fun (acc : TxState × Int × Bool) kr =>
                if kr.2.ntxid = makeNtxid tx ∧ kr.2.txid ≠ txidOf tx then
                  (kr.2.state, kr.2.block_height, true)
                else acc) (.unconfirmed, 0, false)).2.2,
            false⟩)] := by
      simp only [insertTx, hl]
    have hfst : (insertTx db now tx).1 = true := by
      simp only [insertTx, hl]
    have hlooknew : lookupRow (insertTx db now tx).2.rows (txidOf tx) =
        some ⟨tx, txidOf tx, makeNtxid tx,
          (db.rows.foldl
            (fun (acc : TxState × Int × Bool) kr =>
              if kr.2.ntxid = makeNtxid tx ∧ kr.2.txid ≠ txidOf tx then
                (kr.2.state, kr.2.block_height, true)
              else acc) (.unconfirmed, 0, false)).1,
          (db.rows.foldl
            (fun (acc : TxState × Int × Bool) kr =>
              if kr.2.ntxid = makeNtxid tx ∧ kr.2.txid ≠ txidOf tx then
                (kr.2.state, kr.2.block_height, true)
              else acc) (.unconfirmed, 0, false)).2.1,
          now, false,
          (db.rows.foldl
            (fun (acc : TxState × Int × Bool) kr =>
              if kr.2.ntxid = makeNtxid tx ∧ kr.2.txid ≠ txidOf tx then
                (kr.2.state, kr.2.block_height, true)
              else acc) (.unconfirmed, 0, false)).2.2,
          false⟩ := by
      rw [hrows, lookupRow_append, lookupRow_mapRows, hl]
      simp [lookupRow]
    refine ⟨?_, ?_, ?_, ?_⟩
    · rw [hfst]
      simp
    · intro hc
      exact absurd rfl hc
    · intro _
      refine ⟨⟨_, hlooknew, rfl, rfl, rfl, rfl, rfl, rfl, ?_, ?_⟩, ?_, ?_, ?_⟩
      · intro hnone
        rcases inherit_fold_cases db.rows (makeNtxid tx) (txidOf tx)
            (.unconfirmed, 0, false) with ⟨heq, _⟩ | ⟨kr, hm, hc, _⟩
        · rw [heq]
          exact ⟨rfl, rfl, rfl⟩
        · exact absurd hc (hnone kr hm)
      · intro ⟨kr0, hm0, hc0⟩
        rcases inherit_fold_cases db.rows (makeNtxid tx) (txidOf tx)
            (.unconfirmed, 0, false) with ⟨_, hnone⟩ | ⟨kr, hm, hc, heq⟩
        · exact absurd hc0 (hnone kr0 hm0)
        · rw [heq]
          exact ⟨rfl, kr, hm, hc, rfl, rfl⟩
      · intro kr hkr hc
        rw [hrows]
        refine List.mem_append_left _ ?_
        have h2 := @mem_mapRows_of_mem _
          (fun _ r => if r.ntxid = makeNtxid tx ∧ r.txid ≠ txidOf tx then
            {r with bMalleated := true} else r) _ hkr
        dsimp only at h2
        rw [if_pos hc] at h2
        exact h2
      · intro kr hkr hc
        rw [hrows]
        refine List.mem_append_left _ ?_
        have h2 := @mem_mapRows_of_mem _
          (fun _ r => if r.ntxid = makeNtxid tx ∧ r.txid ≠ txidOf tx then
            {r with bMalleated := true} else r) _ hkr
        dsimp only at h2
        rw [if_neg hc] at h2
        exact h2
      · rw [hrows]
        simp [mapRows]
    · have hsnd : insertTx (insertTx db now tx).2 now2 tx =
          (false, (insertTx db now tx).2) := by
        conv_lhs => rw [insertTx]
        rw [hlooknew]
      rw [hsnd]
      exact ⟨rfl, rfl⟩

/-- Witness for C6: inserting `txM1` into the empty database, then again. -/
theorem c6_witness :
    (insertTx (mkTxDatabase 60) 10 txM1).1 = true ∧
    (∃ r, lookupRow (insertTx (mkTxDatabase 60) 10 txM1).2.rows (txidOf txM1) =
        some r ∧ r.tx = txM1 ∧ r.state = .unconfirmed ∧ r.block_height = 0 ∧
        r.bMalleated = false) ∧
    (insertTx (insertTx (mkTxDatabase 60) 10 txM1).2 11 txM1).1 = false ∧
    (insertTx (insertTx (mkTxDatabase 60) 10 txM1).2 11 txM1).2 =
      (insertTx (mkTxDatabase 60) 10 txM1).2 := by
  have h := c6_insert_semantics (mkTxDatabase 60) 10 11 txM1
  obtain ⟨h1, h2, h3, h4⟩ := h
  obtain ⟨⟨r, hr, htx, _, _, _, _, _, hfresh, _⟩, _, _, _⟩ := h3 (by decide)
  obtain ⟨hst, hbh, hml⟩ := hfresh (by decide)
  exact ⟨h1.2 (by decide), ⟨r, hr, htx, hst, hbh, hml⟩, h4.1, h4.2⟩

/-! ## C8 -/

/-- Every row's `txid` field equals its map key (spec invariant 1; holds
in every state the public operations can reach). -/
def KeysMatch (rows : List (Nat × TxRow)) : Prop :=
  ∀ kr ∈ rows, kr.2.txid = kr.1

/-- Map keys are unique (`std::unordered_map`). -/
def KeysNodup (rows : List (Nat × TxRow)) : Prop :=
  (rows.map Prod.fst).Nodup

/-- The malleation-flag invariant: two distinct rows sharing an `ntxid`
both carry `bMalleated`. -/
def MalleInv (rows : List (Nat × TxRow)) : Prop :=
  ∀ kr1 ∈ rows, ∀ kr2 ∈ rows, kr1.1 ≠ kr2.1 → kr1.2.ntxid = kr2.2.ntxid →
    kr1.2.bMalleated = true ∧ kr2.2.bMalleated = true

/-- The bundle of facts preserved by every mutating operation. -/
def DbInv (rows : List (Nat × TxRow)) : Prop :=
  KeysMatch rows ∧ KeysNodup rows ∧ MalleInv rows

theorem lookupRow_of_mem_nodup {rows : List (Nat × TxRow)} {k : Nat} {r : TxRow}
    (hnd : KeysNodup rows) (h : (k, r) ∈ rows) : lookupRow rows k = some r := by
  induction rows with
  | nil => cases h
  | cons kr rest ih =>
    rw [KeysNodup, List.map_cons, List.nodup_cons] at hnd
    rcases List.mem_cons.1 h with heq | hmem
    · rw [← heq]
      simp [lookupRow]
    · have hkne : kr.1 ≠ k := by
        intro hk
        apply hnd.1
        rw [hk]
        exact List.mem_map.2 ⟨(k, r), hmem, rfl⟩
      rw [lookupRow, if_neg hkne]
      exact ih hnd.2 hmem

/-- A value transform that keeps `ntxid` and never clears `bMalleated`
preserves the malleation invariant. -/
theorem malleInv_mapRows {rows : List (Nat × TxRow)} {g : Nat → TxRow → TxRow}
    (hg : ∀ k r, (g k r).ntxid = r.ntxid ∧
      (r.bMalleated = true → (g k r).bMalleated = true))
    (hinv : MalleInv rows) : MalleInv (mapRows rows g) := by
  intro kr1 h1 kr2 h2 hne hn
  obtain ⟨p1, hp1, he1⟩ := mem_mapRows h1
  obtain ⟨p2, hp2, he2⟩ := mem_mapRows h2
  rw [he1, he2] at hne hn ⊢
  dsimp only at hne hn ⊢
  rw [(hg p1.1 p1.2).1, (hg p2.1 p2.2).1] at hn
  obtain ⟨hm1, hm2⟩ := hinv p1 hp1 p2 hp2 hne hn
  exact ⟨(hg p1.1 p1.2).2 hm1, (hg p2.1 p2.2).2 hm2⟩

theorem keysMatch_mapRows {rows : List (Nat × TxRow)} {g : Nat → TxRow → TxRow}
    (hg : ∀ k r, (g k r).txid = r.txid) (h : KeysMatch rows) :
    KeysMatch (mapRows rows g) := by
  intro kr2 h2
  obtain ⟨p, hp, he⟩ := mem_mapRows h2
  rw [he]
  dsimp only
  rw [hg p.1 p.2]
  exact h p hp

theorem keysNodup_mapRows {rows : List (Nat × TxRow)} {g : Nat → TxRow → TxRow}
    (h : KeysNodup rows) : KeysNodup (mapRows rows g) := by
  rw [KeysNodup, keys_mapRows]
  exact h

theorem insertTx_dbInv {db : TxDatabase} {now : Int} {tx : Transaction}
    (h : DbInv db.rows) : DbInv (insertTx db now tx).2.rows := by
  obtain ⟨hkm, hnd, hmi⟩ := h
  cases hl : lookupRow db.rows (txidOf tx) with
  | some r0 =>
    have : (insertTx db now tx).2 = db := by
      simp only [insertTx, hl]
    rw [this]
    exact ⟨hkm, hnd, hmi⟩
  | none =>
    have hrows : (insertTx db now tx).2.rows =
        mapRows db.rows (fun _ r =>
          if r.ntxid = makeNtxid tx ∧ r.txid ≠ txidOf tx then
            {r with bMalleated := true} else r) ++
        [(txidOf tx,
          ⟨tx, txidOf tx, makeNtxid tx,
            (db.rows.foldl
              (fun (acc : TxState × Int × Bool) kr =>
                if kr.2.ntxid = makeNtxid tx ∧ kr.2.txid ≠ txidOf tx then
                  (kr.2.state, kr.2.block_height, true)
                else acc) (.unconfirmed, 0, false)).1,
            (db.rows.foldl
              (fun (acc : TxState × Int × Bool) kr =>
                if kr.2.ntxid = makeNtxid tx ∧ kr.2.txid ≠ txidOf tx then
                  (kr.2.state, kr.2.block_height, true)
                else acc) (.unconfirmed, 0, false)).2.1,
            now, false,
            (db.rows.foldl
              (fun (acc : TxState × Int × Bool) kr =>
                if kr.2.ntxid = makeNtxid tx ∧ kr.2.txid ≠ txidOf tx then
                  (kr.2.state, kr.2.block_height, true)
                else acc) (.unconfirmed, 0, false)).2.2,
            false⟩)] := by
      simp only [insertTx, hl]
    have hgmal : ∀ (k : Nat) (r : TxRow),
        ((fun (_ : Nat) (r : TxRow) =>
          if r.ntxid = makeNtxid tx ∧ r.txid ≠ txidOf tx then
            {r with bMalleated := true} else r) k r).ntxid = r.ntxid ∧
        (r.bMalleated = true →
          ((fun (_ : Nat) (r : TxRow) =>
            if r.ntxid = makeNtxid tx ∧ r.txid ≠ txidOf tx then
              {r with bMalleated := true} else r) k r).bMalleated = true) := by
      intro k r
      dsimp only
      constructor
      · split <;> rfl
      · intro hb
        split <;> simp [hb]
    refine ⟨?_, ?_, ?_⟩
    · rw [hrows]
      intro kr hkr
      rcases List.mem_append.1 hkr with hin | hnew
      · refine keysMatch_mapRows ?_ hkm kr hin
        intro k r
        dsimp only
        split <;> rfl
      · simp only [List.mem_singleton] at hnew
        rw [hnew]
    · exact @insertTx_keys_nodup db now tx hnd
    · rw [hrows]
      intro kr1 h1 kr2 h2 hne hn
      have hfresh : ∀ kr ∈ db.rows, kr.1 ≠ txidOf tx := by
        intro kr hkr hk
        apply lookupRow_none_not_mem_keys hl
        rw [← hk]
        exact List.mem_map.2 ⟨kr, hkr, rfl⟩
      have hmarked : ∀ p ∈ db.rows, p.2.ntxid = makeNtxid tx →
          ((fun (_ : Nat) (r : TxRow) =>
            if r.ntxid = makeNtxid tx ∧ r.txid ≠ txidOf tx then
              {r with bMalleated := true} else r) p.1 p.2).bMalleated = true := by
        intro p hp hpn
        dsimp only
        rw [if_pos ⟨hpn, by rw [hkm p hp]; exact hfresh p hp⟩]
      have hnewmal : (db.rows.foldl
          (fun (acc : TxState × Int × Bool) kr =>
            if kr.2.ntxid = makeNtxid tx ∧ kr.2.txid ≠ txidOf tx then
              (kr.2.state, kr.2.block_height, true)
            else acc) (.unconfirmed, 0, false)).2.2 = true →
          True := fun _ => trivial
      rcases List.mem_append.1 h1 with h1m | h1n <;>
        rcases List.mem_append.1 h2 with h2m | h2n
      · exact malleInv_mapRows hgmal hmi kr1 h1m kr2 h2m hne hn
      · -- kr1 in the old part, kr2 is the new row
        simp only [List.mem_singleton] at h2n
        obtain ⟨p1, hp1, he1⟩ := mem_mapRows h1m
        have hn1 : p1.2.ntxid = makeNtxid tx := by
          rw [he1] at hn
          rw [h2n] at hn
          dsimp only at hn
          rw [← hn, (hgmal p1.1 p1.2).1]
        constructor
        · rw [he1]
          exact hmarked p1 hp1 hn1
        · rw [h2n]
          dsimp only
          rcases inherit_fold_cases db.rows (makeNtxid tx) (txidOf tx)
              (.unconfirmed, 0, false) with ⟨_, hnone⟩ | ⟨kr, hm, hc, heq⟩
          · exact absurd ⟨hn1, by rw [hkm p1 hp1]; exact hfresh p1 hp1⟩
              (hnone p1 hp1)
          · rw [heq]
      · -- symmetric
        simp only [List.mem_singleton] at h1n
        obtain ⟨p2, hp2, he2⟩ := mem_mapRows h2m
        have hn2 : p2.2.ntxid = makeNtxid tx := by
          rw [he2] at hn
          rw [h1n] at hn
          dsimp only at hn
          rw [hn, (hgmal p2.1 p2.2).1]
        constructor
        · rw [h1n]
          dsimp only
          rcases inherit_fold_cases db.rows (makeNtxid tx) (txidOf tx)
              (.unconfirmed, 0, false) with ⟨_, hnone⟩ | ⟨kr, hm, hc, heq⟩
          · exact absurd ⟨hn2, by rw [hkm p2 hp2]; exact hfresh p2 hp2⟩
              (hnone p2 hp2)
          · rw [heq]
        · rw [he2]
          exact hmarked p2 hp2 hn2
      · simp only [List.mem_singleton] at h1n h2n
        rw [h1n, h2n] at hne
        exact absurd rfl hne

theorem dbInv_mapRows {rows : List (Nat × TxRow)} {g : Nat → TxRow → TxRow}
    (hg : ∀ k r, (g k r).ntxid = r.ntxid ∧ (g k r).txid = r.txid ∧
      (r.bMalleated = true → (g k r).bMalleated = true))
    (h : DbInv rows) : DbInv (mapRows rows g) :=
  ⟨keysMatch_mapRows (fun k r => (hg k r).2.1) h.1,
   keysNodup_mapRows h.2.1,
   malleInv_mapRows (fun k r => ⟨(hg k r).1, (hg k r).2.2⟩) h.2.2⟩

theorem dbInv_updateKey {rows : List (Nat × TxRow)} {t : Nat} {f : TxRow → TxRow}
    (hf : ∀ r, (f r).ntxid = r.ntxid ∧ (f r).txid = r.txid ∧
      (r.bMalleated = true → (f r).bMalleated = true))
    (h : DbInv rows) : DbInv (updateKey rows t f) := by
  rw [updateKey]
  refine dbInv_mapRows ?_ h
  intro k r
  by_cases hk : k = t
  · simpa [hk] using hf r
  · simp [hk]

theorem confirmedOp_dbInv {db : TxDatabase} {t : Nat} {h : Int}
    (hinv : DbInv db.rows) : DbInv (confirmedOp db t h).rows := by
  cases hl : lookupRow db.rows t with
  | none =>
    have heq : confirmedOp db t h = db := by
      simp only [confirmedOp, hl]
    rw [heq]
    exact hinv
  | some row0 =>
    simp only [confirmedOp, hl, checkFork, ite_self]
    have s1 : DbInv (updateKey db.rows t fun r =>
        {r with state := .confirmed, block_height := h, bMasterConfirm := true}) :=
      dbInv_updateKey (fun r => ⟨rfl, rfl, fun hb => hb⟩) hinv
    have s2 : DbInv (mapRows (updateKey db.rows t fun r =>
        {r with state := .confirmed, block_height := h, bMasterConfirm := true})
        fun _ r => if r.ntxid = row0.ntxid ∧ r.txid ≠ t then
          {r with block_height := h, state := .confirmed, bMalleated := true}
        else r) := by
      refine dbInv_mapRows ?_ s1
      intro k r
      dsimp only
      refine ⟨?_, ?_, ?_⟩
      · split <;> rfl
      · split <;> rfl
      · intro hb
        split <;> simp [hb]
    split
    · exact dbInv_updateKey (fun r => ⟨rfl, rfl, fun _ => rfl⟩) s2
    · exact s2

theorem unconf_fold_snd_mono (rows : List (Nat × TxRow)) (n t : Nat)
    (seed : Int × TxState × Bool) (h : seed.2.2 = true) :
    (rows.foldl (fun (acc : Int × TxState × Bool) kr =>
      if kr.2.ntxid = n ∧ kr.2.txid ≠ t then
        if kr.2.bMasterConfirm then (kr.2.block_height, kr.2.state, acc.2.2)
        else (-1, acc.2.1, true)
      else acc) seed).2.2 = true := by
  induction rows generalizing seed with
  | nil => exact h
  | cons kr rest ih =>
    rw [List.foldl_cons]
    apply ih
    split
    · split
      · exact h
      · rfl
    · exact h

theorem malleInv_updateKey_at {rows : List (Nat × TxRow)} {t : Nat}
    {f : TxRow → TxRow} (hinv : MalleInv rows)
    (hf_n : ∀ r, (f r).ntxid = r.ntxid)
    (hf_b : ∀ r, (t, r) ∈ rows → r.bMalleated = true → (f r).bMalleated = true) :
    MalleInv (updateKey rows t f) := by
  intro kr1 h1 kr2 h2 hne hn
  rw [updateKey] at h1 h2
  obtain ⟨p1, hp1, he1⟩ := mem_mapRows h1
  obtain ⟨p2, hp2, he2⟩ := mem_mapRows h2
  rw [he1, he2] at hne hn ⊢
  dsimp only at hne hn ⊢
  have hp1t : p1.1 = t → (t, p1.2) ∈ rows := by
    intro hk
    rw [← hk]
    exact hp1
  have hp2t : p2.1 = t → (t, p2.2) ∈ rows := by
    intro hk
    rw [← hk]
    exact hp2
  by_cases hk1 : p1.1 = t <;> by_cases hk2 : p2.1 = t
  · exact absurd (hk1.trans hk2.symm) hne
  · rw [if_pos hk1, if_neg hk2] at hn ⊢
    rw [hf_n] at hn
    obtain ⟨hm1, hm2⟩ := hinv p1 hp1 p2 hp2 hne hn
    exact ⟨hf_b p1.2 (hp1t hk1) hm1, hm2⟩
  · rw [if_neg hk1, if_pos hk2] at hn ⊢
    rw [hf_n] at hn
    obtain ⟨hm1, hm2⟩ := hinv p1 hp1 p2 hp2 hne hn
    exact ⟨hm1, hf_b p2.2 (hp2t hk2) hm2⟩
  · rw [if_neg hk1, if_neg hk2] at hn ⊢
    exact hinv p1 hp1 p2 hp2 hne hn

theorem unconfirmedOp_dbInv {db : TxDatabase} {t : Nat}
    (hinv : DbInv db.rows) : DbInv (unconfirmedOp db t).rows := by
  obtain ⟨hkm, hnd, hmi⟩ := hinv
  cases hl : lookupRow db.rows t with
  | none =>
    have heq : unconfirmedOp db t = db := by
      simp only [unconfirmedOp, hl]
    rw [heq]
    exact ⟨hkm, hnd, hmi⟩
  | some row0 =>
    -- in either branch the result is an updateKey at t over a row list
    -- whose key-t value is row0 itself
    by_cases hs : row0.state = .confirmed
    · simp only [unconfirmedOp, hl, hs, if_true, ite_true]
      have s1 : DbInv (mapRows db.rows fun _ r =>
          if r.ntxid = row0.ntxid ∧ r.txid ≠ t ∧ r.bMasterConfirm = false then
            {r with block_height := -1, state := .unconfirmed, bMalleated := true}
          else r) := by
        refine dbInv_mapRows ?_ ⟨hkm, hnd, hmi⟩
        intro k r
        dsimp only
        refine ⟨?_, ?_, ?_⟩
        · split <;> rfl
        · split <;> rfl
        · intro hb
          split <;> simp [hb]
      refine ⟨?_, ?_, ?_⟩
      · refine keysMatch_mapRows ?_ s1.1
        intro k r
        split <;> rfl
      · exact keysNodup_mapRows s1.2.1
      · refine malleInv_updateKey_at s1.2.2 (fun r => rfl) ?_
        intro r hr hb
        dsimp only
        -- the key-t value of the mapped rows is row0 unchanged
        obtain ⟨p, hp, he⟩ := mem_mapRows hr
        have hpk : p.1 = t := by
          have := congrArg Prod.fst he
          exact this.symm
        have hpt : (t, p.2) ∈ db.rows := by
          rw [← hpk]
          exact hp
        have hval : p.2 = row0 := by
          have hlu := lookupRow_of_mem_nodup hnd hpt
          rw [hl] at hlu
          injection hlu with hv
          exact hv.symm
        have htxid : p.2.txid = t := by
          rw [hkm p hp, hpk]
        have hnodemote : r = p.2 := by
          have := congrArg Prod.snd he
          dsimp only at this
          rw [this]
          rw [if_neg]
          intro ⟨_, hct, _⟩
          exact hct htxid
        rw [hnodemote, hval] at hb
        exact unconf_fold_snd_mono db.rows row0.ntxid t (0, .unconfirmed, row0.bMalleated) hb
    · simp only [unconfirmedOp, hl, hs, if_false, ite_false]
      refine ⟨?_, ?_, ?_⟩
      · rw [updateKey]
        refine keysMatch_mapRows ?_ hkm
        intro k r
        split <;> rfl
      · rw [updateKey]
        exact keysNodup_mapRows hnd
      · refine malleInv_updateKey_at hmi (fun r => rfl) ?_
        intro r hr hb
        dsimp only
        have hval : r = row0 := by
          have hlu := lookupRow_of_mem_nodup hnd hr
          rw [hl] at hlu
          injection hlu with hv
          exact hv.symm
        rw [← hval, hb]

theorem applyOp_dbInv {db : TxDatabase} {op : DbOp} (h : DbInv db.rows) :
    DbInv (applyOp db op).rows := by
  cases op with
  | ins tx now => exact insertTx_dbInv h
  | conf t ht => exact confirmedOp_dbInv h
  | unconf t => exact unconfirmedOp_dbInv h

theorem applyOps_dbInv (ops : List DbOp) (db : TxDatabase) (h : DbInv db.rows) :
    DbInv (applyOps db ops).rows := by
  induction ops generalizing db with
  | nil => exact h
  | cons op rest ih => exact ih _ (applyOp_dbInv h)

/-- C8: after any sequence of `insert` / `confirmed` / `unconfirmed`
operations from the empty database, any two distinct rows sharing an
`ntxid` both carry `malleated = true`. -/
theorem c8_malleation_invariant (timeout : Nat) (ops : List DbOp) :
    ∀ kr1 ∈ (applyOps (mkTxDatabase timeout) ops).rows,
    ∀ kr2 ∈ (applyOps (mkTxDatabase timeout) ops).rows,
      kr1.1 ≠ kr2.1 → kr1.2.ntxid = kr2.2.ntxid →
      kr1.2.bMalleated = true ∧ kr2.2.bMalleated = true := by
  have hbase : DbInv (mkTxDatabase timeout).rows := by
    refine ⟨fun kr hkr => absurd hkr (by simp [mkTxDatabase]), by
      simp [KeysNodup, mkTxDatabase], fun kr hkr => absurd hkr (by simp [mkTxDatabase])⟩
  exact (applyOps_dbInv ops _ hbase).2.2

/-- Witness for C8: the two inserted siblings of `dbC3`'s prefix share an
ntxid and are distinct rows; the invariant proves both malleated (also
checkable by computation). -/
theorem c8_witness :
    ∃ kr1 ∈ (applyOps (mkTxDatabase 60) [.ins txM1 10, .ins txM2 11]).rows,
    ∃ kr2 ∈ (applyOps (mkTxDatabase 60) [.ins txM1 10, .ins txM2 11]).rows,
      kr1.1 ≠ kr2.1 ∧ kr1.2.ntxid = kr2.2.ntxid ∧
      kr1.2.bMalleated = true ∧ kr2.2.bMalleated = true := by
  refine ⟨(txidOf txM1, ⟨txM1, txidOf txM1, ntxN, .unconfirmed, 0, 10, false,
      true, false⟩), by decide,
    (txidOf txM2, ⟨txM2, txidOf txM2, ntxN, .unconfirmed, 0, 11, false,
      true, false⟩), by decide, by decide, by decide, ?_⟩
  exact c8_malleation_invariant 60 [.ins txM1 10, .ins txM2 11]
    _ (by decide) _ (by decide) (by decide) (by decide)

/-! ## C9 -/

theorem memoConsistent_nil (rows : List (Nat × TxRow)) (ds : List OutPoint) :
    MemoConsistent rows ds [] := by
  intro t b h
  simp [lookupMemo] at h

theorem memoConsistent_cons {rows : List (Nat × TxRow)} {ds : List OutPoint}
    {memo : List (Nat × Bool)} {t : Nat} {b : Bool}
    (hc : MemoConsistent rows ds memo) (hb : SafeR rows ds (.inl t) b) :
    MemoConsistent rows ds ((t, b) :: memo) := by
  intro t2 b2 h
  by_cases hk : t = t2
  · subst hk
    simp [lookupMemo] at h
    rw [← h]
    exact hb
  · simp only [lookupMemo, hk, if_false, ite_false] at h
    exact hc t2 b2 h

theorem safeR_det {rows : List (Nat × TxRow)} {ds : List OutPoint}
    {x : Nat ⊕ List TxInput} {b1 : Bool} (h1 : SafeR rows ds x b1) :
    ∀ {b2 : Bool}, SafeR rows ds x b2 → b1 = b2 := by
  induction h1 with
  | missing txid hlk =>
    intro b2 h2
    cases h2
    case missing => rfl
    case confirmedRow => rfl
    case unconfRow =>
      rename_i row2 hne2 hlk2 hin2
      simp [hlk] at hlk2
  | confirmedRow txid row hlk hst =>
    intro b2 h2
    cases h2
    case missing =>
      rename_i hlk2
      simp [hlk] at hlk2
    case confirmedRow => rfl
    case unconfRow =>
      rename_i row2 hne2 hlk2 hin2
      rw [hlk] at hlk2
      injection hlk2 with hr
      rw [← hr] at hne2
      exact absurd hst hne2
  | unconfRow txid row b hlk hne hin ih =>
    intro b2 h2
    cases h2
    case missing =>
      rename_i hlk2
      simp [hlk] at hlk2
    case confirmedRow =>
      rename_i row2 hst2 hlk2
      rw [hlk] at hlk2
      injection hlk2 with hr
      rw [hr] at hne
      exact absurd hst2 hne
    case unconfRow =>
      rename_i row2 hne2 hlk2 hin2
      rw [hlk] at hlk2
      injection hlk2 with hr
      rw [← hr] at hin2
      exact ih hin2
  | nilInputs =>
    intro b2 h2
    cases h2
    rfl
  | dsHit i rest hmem =>
    intro b2 h2
    cases h2
    case dsHit => rfl
    case headUnsafe => rfl
    case headSafe =>
      rename_i hnm2 hsafe2 hrest2
      exact absurd hmem hnm2
  | headUnsafe i rest hnm hsafe ih =>
    intro b2 h2
    cases h2
    case dsHit => rfl
    case headUnsafe => rfl
    case headSafe =>
      rename_i hnm2 hsafe2 hrest2
      cases ih hsafe2
  | headSafe i rest b hnm hsafe hrest ihhead ihrest =>
    intro b2 h2
    cases h2
    case dsHit =>
      rename_i hmem2
      exact absurd hmem2 hnm
    case headUnsafe =>
      rename_i hnm2 hsafe2
      cases ihhead hsafe2
    case headSafe =>
      rename_i hnm2 hsafe2 hrest2
      exact ihrest hrest2

theorem isSafeInputsGo_sound (rows : List (Nat × TxRow)) (ds : List OutPoint)
    (rec : List (Nat × Bool) → Nat → Option (Bool × List (Nat × Bool)))
    (hrec : ∀ memo txid b memo2, MemoConsistent rows ds memo →
      rec memo txid = some (b, memo2) →
      SafeR rows ds (.inl txid) b ∧ MemoConsistent rows ds memo2) :
    ∀ (inputs : List TxInput) (memo : List (Nat × Bool)) (b : Bool)
      (memo2 : List (Nat × Bool)), MemoConsistent rows ds memo →
      isSafeInputsGo ds rec memo inputs = some (b, memo2) →
      SafeR rows ds (.inr inputs) b ∧ MemoConsistent rows ds memo2 := by
  intro inputs
  induction inputs with
  | nil =>
    intro memo b memo2 hc h
    simp only [isSafeInputsGo] at h
    injection h with h2
    injection h2 with hb hm
    rw [← hb, ← hm]
    exact ⟨SafeR.nilInputs, hc⟩
  | cons i rest ih =>
    intro memo b memo2 hc h
    simp only [isSafeInputsGo] at h
    by_cases hds : i.previous_output ∈ ds
    · rw [if_pos hds] at h
      injection h with h2
      injection h2 with hb hm
      rw [← hb, ← hm]
      exact ⟨SafeR.dsHit i rest hds, hc⟩
    · rw [if_neg hds] at h
      cases hm : rec memo i.previous_output.hash with
      | none =>
        simp only [hm] at h
        exact Option.noConfusion h
      | some p =>
        obtain ⟨bh, memo1⟩ := p
        simp only [hm] at h
        obtain ⟨hsafe, hc1⟩ := hrec memo _ bh memo1 hc hm
        cases bh with
        | false =>
          injection h with h2
          injection h2 with hb hm2
          rw [← hb, ← hm2]
          exact ⟨SafeR.headUnsafe i rest hds hsafe, hc1⟩
        | true =>
          obtain ⟨hrest, hc2⟩ := ih memo1 b memo2 hc1 h
          exact ⟨SafeR.headSafe i rest b hds hsafe hrest, hc2⟩

theorem isSafeMemo_sound (rows : List (Nat × TxRow)) (ds : List OutPoint) :
    ∀ (fuel : Nat) (memo : List (Nat × Bool)) (txid : Nat) (b : Bool)
      (memo2 : List (Nat × Bool)), MemoConsistent rows ds memo →
      isSafeMemo rows ds fuel memo txid = some (b, memo2) →
      SafeR rows ds (.inl txid) b ∧ MemoConsistent rows ds memo2 := by
  intro fuel
  induction fuel with
  | zero =>
    intro memo txid b memo2 hc h
    simp [isSafeMemo] at h
  | succ f ih =>
    intro memo txid b memo2 hc h
    simp only [isSafeMemo] at h
    cases hlm : lookupMemo memo txid with
    | some b0 =>
      simp only [hlm] at h
      injection h with h2
      injection h2 with hb hm
      rw [← hb, ← hm]
      exact ⟨hc txid b0 hlm, hc⟩
    | none =>
      simp only [hlm] at h
      cases hlr : lookupRow rows txid with
      | none =>
        simp only [hlr] at h
        injection h with h2
        injection h2 with hb hm
        rw [← hb, ← hm]
        exact ⟨SafeR.missing txid hlr,
          memoConsistent_cons hc (SafeR.missing txid hlr)⟩
      | some row =>
        simp only [hlr] at h
        by_cases hst : row.state = .confirmed
        · rw [if_pos hst] at h
          injection h with h2
          injection h2 with hb hm
          rw [← hb, ← hm]
          exact ⟨SafeR.confirmedRow txid row hlr hst,
            memoConsistent_cons hc (SafeR.confirmedRow txid row hlr hst)⟩
        · rw [if_neg hst] at h
          cases hgo : isSafeInputsGo ds (isSafeMemo rows ds f) memo
              row.tx.inputs with
          | none =>
            simp only [hgo] at h
            exact Option.noConfusion h
          | some p =>
            obtain ⟨bi, memo1⟩ := p
            simp only [hgo] at h
            obtain ⟨hin, hc1⟩ := isSafeInputsGo_sound rows ds
              (isSafeMemo rows ds f) (fun m t b2 m2 => ih m t b2 m2)
              row.tx.inputs memo bi memo1 hc hgo
            have hs : SafeR rows ds (.inl txid) bi :=
              SafeR.unconfRow txid row bi hlr hst hin
            injection h with h2
            injection h2 with hb hm
            rw [← hb, ← hm]
            exact ⟨hs, memoConsistent_cons hc1 hs⟩

/-- C9: for a fixed row table and double-spend set, any successful
`isSafe` run from a consistent memo table computes exactly the reference
recursive predicate (the inductive relation `SafeR`), the resulting memo
table is again consistent, and two runs from (possibly different)
consistent memo tables agree — the answer does not depend on how earlier
calls populated the memo. -/
theorem c9_is_safe_reference_and_memo_independence
    (rows : List (Nat × TxRow)) (ds : List OutPoint) (f1 f2 : Nat)
    (m1 m2 m1b m2b : List (Nat × Bool)) (t : Nat) (b1 b2 : Bool)
    (hc1 : MemoConsistent rows ds m1) (hc2 : MemoConsistent rows ds m2)
    (h1 : isSafeMemo rows ds f1 m1 t = some (b1, m1b))
    (h2 : isSafeMemo rows ds f2 m2 t = some (b2, m2b)) :
    SafeR rows ds (.inl t) b1 ∧ b1 = b2 ∧ MemoConsistent rows ds m1b := by
  obtain ⟨hs1, hcc1⟩ := isSafeMemo_sound rows ds f1 m1 t b1 m1b hc1 h1
  obtain ⟨hs2, _⟩ := isSafeMemo_sound rows ds f2 m2 t b2 m2b hc2 h2
  exact ⟨hs1, safeR_det hs1 hs2, hcc1⟩

/-- A one-row table: the unconfirmed transaction `txM1` stored under key
7, whose single input spends outpoint (5, 0). -/
def rowsC9 : List (Nat × TxRow) :=
  [(7, ⟨txM1, 7, 9, .unconfirmed, 0, 0, false, false, false⟩)]

/-- The double-spend set contains (5, 0), so key 7 is unsafe. -/
def dsC9 : List OutPoint := [⟨5, 0⟩]

/-- Witness for C9: two runs with different fuel from the empty memo both
return `false` for key 7, matching the reference relation. -/
theorem c9_witness :
    SafeR rowsC9 dsC9 (.inl 7) false ∧ false = false ∧
      MemoConsistent rowsC9 dsC9 [(7, false)] :=
  c9_is_safe_reference_and_memo_independence rowsC9 dsC9 2 5 [] [] [(7, false)]
    [(7, false)] 7 false false (memoConsistent_nil rowsC9 dsC9)
    (memoConsistent_nil rowsC9 dsC9) (by decide) (by decide)

/-! ## C1 -/

/-- Machine-width bounds under which one row serializes losslessly:
hashes fit in 32 bytes, the codec bounds hold for the transaction, and
`block_height` / `timestamp` fit in a signed 64-bit integer. -/
def WfRow (kr : Nat × TxRow) : Prop :=
  kr.1 < 2 ^ 256 ∧ kr.2.txid < 2 ^ 256 ∧ kr.2.ntxid < 2 ^ 256 ∧
    WfTx kr.2.tx ∧ -(2 ^ 63) ≤ kr.2.block_height ∧ kr.2.block_height < 2 ^ 63 ∧
    -(2 ^ 63) ≤ kr.2.timestamp ∧ kr.2.timestamp < 2 ^ 63

instance (kr : Nat × TxRow) : Decidable (WfRow kr) := by
  unfold WfRow
  infer_instance

/-- The row `load` reconstructs from a serialized row: `block_height`
holds the stored `height_or_timestamp` value, an unconfirmed row recovers
its timestamp from it, and a confirmed row is stamped with load-time
`now`. -/
def reloadRow (now2 : Int) (r : TxRow) : TxRow :=
  { tx := r.tx, txid := r.txid, ntxid := r.ntxid, state := r.state,
    block_height := if r.state = .unconfirmed then r.timestamp else r.block_height,
    timestamp := if r.state = .unconfirmed then r.timestamp else now2,
    need_check := r.need_check, bMalleated := r.bMalleated,
    bMasterConfirm := r.bMasterConfirm }

theorem ofByte_toByte (st : TxState) : TxState.ofByte st.toByte = st := by
  cases st <;> rfl

theorem wrapI64_toNat_emod (v : Int) (h1 : -(2 ^ 63) ≤ v) (h2 : v < 2 ^ 63) :
    wrapI64 ((v % (2 ^ 64 : Int)).toNat) = v := by
  have hnn : 0 ≤ v % (2 ^ 64 : Int) := Int.emod_nonneg v (by norm_num)
  have hlt : v % (2 ^ 64 : Int) < 2 ^ 64 := Int.emod_lt_of_pos v (by norm_num)
  have hcases : v % (2 ^ 64 : Int) = v ∨ v % (2 ^ 64 : Int) = v + 2 ^ 64 := by
    omega
  rcases hcases with hc | hc <;> simp [wrapI64] <;> omega

theorem decide_flag_ne_zero (b : Bool) :
    decide ((if b then 1 else 0 : Nat) ≠ 0) = b := by
  cases b <;> decide

theorem readTail_rowTail (r : TxRow) (height : Int) (rest : List Nat)
    (htxid : r.txid < 2 ^ 256) (hntxid : r.ntxid < 2 ^ 256) :
    readTail (writeByte r.state.toByte ++ write8i height ++
        writeFlag r.need_check ++ writeHash r.txid ++ writeHash r.ntxid ++
        writeFlag r.bMalleated ++ writeFlag r.bMasterConfirm ++ rest) =
      some ((r.state.toByte, (height % (2 ^ 64 : Int)).toNat,
        (if r.need_check then 1 else 0), r.txid, r.ntxid,
        (if r.bMalleated then 1 else 0), (if r.bMasterConfirm then 1 else 0)),
        rest) := by
  have hb : r.state.toByte < 256 := by cases r.state <;> decide
  rw [readTail]
  simp only [List.append_assoc]
  rw [readByte_writeByte _ _ hb]
  simp only [Option.bind_eq_bind, Option.some_bind]
  rw [readU64_write8i]
  simp only [Option.some_bind]
  rw [readByte_writeFlag]
  simp only [Option.some_bind]
  rw [readHash_writeHash _ _ htxid]
  simp only [Option.some_bind]
  rw [readHash_writeHash _ _ hntxid]
  simp only [Option.some_bind]
  rw [readByte_writeFlag]
  simp only [Option.some_bind]
  rw [readByte_writeFlag]
  simp only [Option.some_bind]

theorem parseRecord_rowBytes (now2 : Int) (k : Nat) (r : TxRow)
    (rest : List Nat) (hwf : WfRow (k, r)) :
    parseRecord now2 (rowBytes (k, r) ++ rest) =
      .ok ((k, reloadRow now2 r), rest) := by
  obtain ⟨hk, htxid, hntxid, htx, hbh1, hbh2, hts1, hts2⟩ := hwf
  dsimp only at hk htxid hntxid htx hbh1 hbh2 hts1 hts2
  rw [parseRecord, rowBytes]
  dsimp only
  simp only [List.append_assoc]
  rw [readByte_writeByte _ _ (by norm_num [serialTxByte])]
  dsimp only
  have hkind : ¬ serialTxByte ≠ serialTxByte := fun hne => hne rfl
  rw [if_neg hkind]
  rw [readHash_writeHash _ _ hk]
  dsimp only
  rw [decodeTx_encodeTx _ _ htx]
  dsimp only
  have hdrop :
      (encodeTx r.tx ++ (writeByte r.state.toByte ++ (write8i
        (if r.state = .unconfirmed then r.timestamp else r.block_height) ++
        (writeFlag r.need_check ++ (writeHash r.txid ++ (writeHash r.ntxid ++
        (writeFlag r.bMalleated ++ (writeFlag r.bMasterConfirm ++
        rest)))))))).drop (encodeTx r.tx).length =
      writeByte r.state.toByte ++ write8i
        (if r.state = .unconfirmed then r.timestamp else r.block_height) ++
        writeFlag r.need_check ++ writeHash r.txid ++ writeHash r.ntxid ++
        writeFlag r.bMalleated ++ writeFlag r.bMasterConfirm ++ rest := by
    rw [List.drop_left]
    simp [List.append_assoc]
  rw [hdrop, readTail_rowTail r _ rest htxid hntxid]
  dsimp only
  have hheight : -(2 ^ 63) ≤
      (if r.state = .unconfirmed then r.timestamp else r.block_height) ∧
      (if r.state = .unconfirmed then r.timestamp else r.block_height) < 2 ^ 63 := by
    split <;> exact ⟨by assumption, by assumption⟩
  have hwrap := wrapI64_toNat_emod _ hheight.1 hheight.2
  rw [rowOfFields]
  rw [ofByte_toByte, hwrap, reloadRow]
  by_cases hst : r.state = .unconfirmed
  · simp only [hst, if_true, ite_true, decide_flag_ne_zero]
  · simp only [hst, if_false, ite_false, decide_flag_ne_zero]

theorem flatMap_purge (timeout : Nat) (now : Int) (rows : List (Nat × TxRow)) :
    (rows.flatMap fun kr =>
        if rowPurged timeout now kr.2 then [] else rowBytes kr) =
      (rows.filter fun kr => !rowPurged timeout now kr.2).flatMap rowBytes := by
  induction rows with
  | nil => rfl
  | cons kr rest ih =>
    by_cases hp : rowPurged timeout now kr.2 <;>
      simp [List.flatMap_cons, List.filter_cons, hp, ih]

theorem rowBytes_append_ne_empty (kr : Nat × TxRow) (l : List Nat) :
    (rowBytes kr ++ l).isEmpty = false := by
  simp [rowBytes, writeByte]

/-- Parsing the concatenated records of well-formed rows with pairwise
distinct keys, none already present in the accumulator, appends each
reloaded row in order. -/
theorem parseRecords_encode (now2 : Int) (rows : List (Nat × TxRow)) :
    ∀ acc : List (Nat × TxRow), (∀ kr ∈ rows, WfRow kr) →
    (∀ kr ∈ rows, lookupRow acc kr.1 = none) → KeysNodup rows →
    parseRecords now2 (rows.flatMap rowBytes) acc =
      .ok (acc ++ rows.map fun kr => (kr.1, reloadRow now2 kr.2)) := by
  induction rows with
  | nil => intro acc _ _ _; rw [parseRecords]; simp
  | cons kr rest ih =>
    obtain ⟨k, r⟩ := kr
    intro acc hwf hdisj hnd
    have hrec := parseRecord_rowBytes now2 k r (rest.flatMap rowBytes)
      (hwf (k, r) (List.mem_cons_self _ _))
    have hnone := hdisj (k, r) (List.mem_cons_self _ _)
    have hne : ∀ kr2 ∈ rest, k ≠ kr2.1 := by
      intro kr2 hm2 he
      have hk : k ∈ rest.map Prod.fst := he ▸ List.mem_map_of_mem Prod.fst hm2
      have := (List.nodup_cons.mp hnd).1
      exact this hk
    rw [List.flatMap_cons, parseRecords]
    rw [dif_neg (by simp [rowBytes_append_ne_empty])]
    split
    case _ e h =>
      rw [hrec] at h
      exact Except.noConfusion h
    case _ kv rest2 h =>
      rw [hrec] at h
      simp only [Except.ok.injEq, Prod.mk.injEq] at h
      obtain ⟨h1, h2⟩ := h
      subst h1
      subst h2
      have hup : upsert acc k (reloadRow now2 r) =
          acc ++ [(k, reloadRow now2 r)] := by
        rw [upsert, hnone]
        rfl
      rw [hup]
      rw [ih (acc ++ [(k, reloadRow now2 r)])
        (fun kr2 hm2 => hwf kr2 (List.mem_cons_of_mem _ hm2))
        (by
          intro kr2 hm2
          rw [lookupRow_append, hdisj kr2 (List.mem_cons_of_mem _ hm2)]
          simp [lookupRow, hne kr2 hm2])
        (List.nodup_cons.mp hnd).2]
      simp

instance (rows : List (Nat × TxRow)) : Decidable (KeysNodup rows) := by
  unfold KeysNodup
  infer_instance

/-- The C1 round-trip property: loading a serialized snapshot succeeds,
preserves `last_height`, keeps exactly the non-purged rows (in key set),
reconstructs every kept row's fields (`block_height` for confirmed rows,
`timestamp` for unconfirmed rows), and drops every purged row. -/
def SerializeRoundTrip (db db2 : TxDatabase) (now now2 : Int) : Prop :=
  ∃ db3,
    loadDB db2 (serializeDB db now) now2 = (db3, none) ∧
    db3.last_height = db.last_height ∧
    db3.rows.map Prod.fst =
      ((db.rows.filter fun kr =>
        !rowPurged db.unconfirmed_timeout now kr.2).map Prod.fst) ∧
    (∀ kr ∈ db.rows, rowPurged db.unconfirmed_timeout now kr.2 = false →
      ∃ r2, lookupRow db3.rows kr.1 = some r2 ∧
        r2.tx = kr.2.tx ∧ r2.txid = kr.2.txid ∧ r2.ntxid = kr.2.ntxid ∧
        r2.state = kr.2.state ∧
        (kr.2.state = .confirmed → r2.block_height = kr.2.block_height) ∧
        (kr.2.state = .unconfirmed → r2.timestamp = kr.2.timestamp) ∧
        r2.need_check = kr.2.need_check ∧ r2.bMalleated = kr.2.bMalleated ∧
        r2.bMasterConfirm = kr.2.bMasterConfirm) ∧
    (∀ kr ∈ db.rows, rowPurged db.unconfirmed_timeout now kr.2 = true →
      lookupRow db3.rows kr.1 = none)

/-- C1: Round-trip persistence. For every database whose rows fit the
serialized widths (`WfRow`), whose `last_height` fits in 64 bits, and
whose keys are distinct (an `unordered_map` guarantee), `load(serialize())`
succeeds and yields exactly the rows not purged by the stale policy
(`state = unconfirmed ∧ timestamp + unconfirmed_timeout < now`), with tx,
txid, ntxid, state, need_check, malleated, master_confirm preserved for
every kept row, block_height preserved for confirmed rows, timestamp
preserved for unconfirmed rows, and last_height preserved. -/
theorem c1_serialize_load_round_trip (db db2 : TxDatabase) (now now2 : Int)
    (hwf : ∀ kr ∈ db.rows, WfRow kr) (hlh : db.last_height < 2 ^ 64)
    (hnd : KeysNodup db.rows) : SerializeRoundTrip db db2 now now2 := by
  have hkeepwf : ∀ kr ∈ (db.rows.filter fun kr =>
      !rowPurged db.unconfirmed_timeout now kr.2), WfRow kr :=
    fun kr h => hwf kr (List.mem_of_mem_filter h)
  have hkeepnd : KeysNodup (db.rows.filter fun kr =>
      !rowPurged db.unconfirmed_timeout now kr.2) :=
    List.Nodup.sublist (List.Sublist.map Prod.fst (List.filter_sublist _)) hnd
  have hcore : loadCore (serializeDB db now) now2 =
      .ok (db.last_height, mapRows (db.rows.filter fun kr =>
        !rowPurged db.unconfirmed_timeout now kr.2)
        fun _ r => reloadRow now2 r) := by
    rw [serializeDB, flatMap_purge, loadCore, List.append_assoc]
    rw [readU32_write4 _ _ (by norm_num [serialMagic])]
    dsimp only
    rw [if_neg (fun hne => hne rfl)]
    rw [readU64_write8 _ _ hlh]
    dsimp only
    rw [parseRecords_encode now2 _ [] hkeepwf (fun kr _ => rfl) hkeepnd]
    rfl
  refine ⟨⟨mapRows (db.rows.filter fun kr =>
      !rowPurged db.unconfirmed_timeout now kr.2) fun _ r => reloadRow now2 r,
      db.last_height, db2.unconfirmed_timeout⟩,
    by rw [loadDB, hcore], rfl, by dsimp only; rw [keys_mapRows], ?_, ?_⟩
  · intro kr hm hp
    dsimp only
    have hkmem : kr ∈ db.rows.filter fun kr =>
        !rowPurged db.unconfirmed_timeout now kr.2 :=
      List.mem_filter.mpr ⟨hm, by simp [hp]⟩
    refine ⟨reloadRow now2 kr.2, ?_, rfl, rfl, rfl, rfl, ?_, ?_, rfl, rfl, rfl⟩
    · rw [lookupRow_mapRows, lookupRow_of_mem_nodup hkeepnd hkmem]
      rfl
    · intro hc
      have hne : ¬ kr.2.state = TxState.unconfirmed := by
        rw [hc]
        intro h2
        exact TxState.noConfusion h2
      simp [reloadRow, hne]
    · intro hu
      simp [reloadRow, hu]
  · intro kr hm hp
    dsimp only
    rw [lookupRow_mapRows]
    have hkeepnone : lookupRow (db.rows.filter fun kr =>
        !rowPurged db.unconfirmed_timeout now kr.2) kr.1 = none := by
      cases he : lookupRow (db.rows.filter fun kr =>
          !rowPurged db.unconfirmed_timeout now kr.2) kr.1 with
      | none => rfl
      | some r2 =>
        have hmem2 := List.mem_filter.mp (lookupRow_mem he)
        have h1 := lookupRow_of_mem_nodup hnd hmem2.1
        have h2 := lookupRow_of_mem_nodup hnd hm
        rw [h1] at h2
        injection h2 with h3
        rw [h3, hp] at hmem2
        simp at hmem2
    rw [hkeepnone]
    rfl

/-- Fixture for C1: a database with one confirmed and one unconfirmed row. -/
def dbC1 : TxDatabase :=
  confirmedOp (insertTx (insertTx (mkTxDatabase 100) 3 txM1).2 4 txM2).2
    (txidOf txM1) 95

theorem c1_witness :
    (∀ kr ∈ dbC1.rows, WfRow kr) ∧ dbC1.last_height < 2 ^ 64 ∧
      KeysNodup dbC1.rows ∧ SerializeRoundTrip dbC1 (mkTxDatabase 7) 50 60 :=
  ⟨by decide, by decide, by decide,
    c1_serialize_load_round_trip dbC1 (mkTxDatabase 7) 50 60
      (by decide) (by decide) (by decide)⟩

/-! ## C7 -/

/-- The error component of an `Except` result. -/
def exceptErr {α : Type} : Except DbError α → Option DbError
  | .error e => some e
  | .ok _ => none

theorem parseRecords_step (now : Int) (data : List Nat)
    (acc : List (Nat × TxRow)) (hemp : ¬ data.isEmpty = true)
    {res : Except DbError ((Nat × TxRow) × List Nat)}
    (hres : parseRecord now data = res) :
    parseRecords now data acc =
      match res with
      | .error e => .error e
      | .ok (kv, rest) => parseRecords now rest (upsert acc kv.1 kv.2) := by
  rw [parseRecords, dif_neg hemp]
  split
  case _ e h =>
    rw [h] at hres
    subst hres
    rfl
  case _ kv rest2 h =>
    rw [h] at hres
    subst hres
    rfl

/-- The record-parsing loop reports exactly the spec's record
classification: the first error among unknown-kind and truncation, in
stream order, and no error on a clean end of input. -/
theorem parseRecords_err (now : Int) (fuel : Nat) :
    ∀ data : List Nat, data.length ≤ fuel → ∀ acc,
      exceptErr (parseRecords now data acc) = specRecordClassifyFuel fuel data := by
  induction fuel with
  | zero =>
    intro data hlen acc
    have hnil : data = [] := List.length_eq_zero.mp (Nat.le_zero.mp hlen)
    subst hnil
    rw [parseRecords]
    rfl
  | succ fuel ih =>
    intro data hlen acc
    by_cases hemp : data.isEmpty = true
    · rw [parseRecords, dif_pos hemp, specRecordClassifyFuel, if_pos hemp]
      rfl
    · rw [specRecordClassifyFuel, if_neg hemp]
      cases hb : readByte data with
      | none =>
        have hp : parseRecord now data = .error .Truncated := by
          rw [parseRecord, hb]
        rw [parseRecords_step now data acc hemp hp]
        rfl
      | some p =>
        obtain ⟨kind, d1⟩ := p
        dsimp only
        by_cases hkind : kind ≠ serialTxByte
        · have hp : parseRecord now data = .error .UnknownRecord := by
            rw [parseRecord, hb]
            dsimp only
            rw [if_pos hkind]
          rw [parseRecords_step now data acc hemp hp, if_pos hkind]
          rfl
        · rw [if_neg hkind]
          cases hh : readHash d1 with
          | none =>
            have hp : parseRecord now data = .error .Truncated := by
              rw [parseRecord, hb]
              dsimp only
              rw [if_neg hkind, hh]
            rw [parseRecords_step now data acc hemp hp]
            rfl
          | some p2 =>
            obtain ⟨hsh, d2⟩ := p2
            dsimp only
            cases hdx : decodeTx d2 with
            | none =>
              have hp : parseRecord now data = .error .Truncated := by
                rw [parseRecord, hb]
                dsimp only
                rw [if_neg hkind, hh]
                dsimp only
                rw [hdx]
              rw [parseRecords_step now data acc hemp hp]
              rfl
            | some p3 =>
              obtain ⟨tx, rem⟩ := p3
              dsimp only
              cases ht : readTail (d2.drop (encodeTx tx).length) with
              | none =>
                have hp : parseRecord now data = .error .Truncated := by
                  rw [parseRecord, hb]
                  dsimp only
                  rw [if_neg hkind, hh]
                  dsimp only
                  rw [hdx]
                  dsimp only
                  rw [ht]
                rw [parseRecords_step now data acc hemp hp]
                rfl
              | some p4 =>
                obtain ⟨f, d10⟩ := p4
                dsimp only
                have hp : parseRecord now data =
                    .ok ((hsh, rowOfFields now tx f), d10) := by
                  rw [parseRecord, hb]
                  dsimp only
                  rw [if_neg hkind, hh]
                  dsimp only
                  rw [hdx]
                  dsimp only
                  rw [ht]
                rw [parseRecords_step now data acc hemp hp]
                have hlt := parseRecord_shrink hp
                exact ih d10 (by omega) _

/-- `loadCore`'s error is exactly the spec-side snapshot classification. -/
theorem loadCore_err (data : List Nat) (now : Int) :
    exceptErr (loadCore data now) = specLoadClassify data := by
  rw [loadCore, specLoadClassify]
  cases hu : readU32 data with
  | none => rfl
  | some p =>
    obtain ⟨magic, d1⟩ := p
    dsimp only
    by_cases h1 : magic = oldSerialMagic
    · subst h1
      have hco : oldSerialMagic ≠ serialMagic := by decide
      simp only [if_pos hco, if_pos (Eq.refl oldSerialMagic)]
      rfl
    · by_cases h2 : magic = serialMagic
      · subst h2
        have hns : ¬ serialMagic ≠ serialMagic := fun hne => hne rfl
        simp only [if_neg hns, if_neg h1]
        cases h64 : readU64 d1 with
        | none => rfl
        | some p2 =>
          obtain ⟨lh, d2⟩ := p2
          dsimp only
          have h := parseRecords_err now d2.length d2 (Nat.le_refl _) []
          cases hp : parseRecords now d2 [] with
          | error e =>
            rw [hp] at h
            simp only [hp]
            exact h
          | ok rows =>
            rw [hp] at h
            simp only [hp]
            exact h
      · simp only [if_pos h2, if_neg h1]
        rfl

theorem c7_counterexample :
    (loadDB (mkTxDatabase 5) [] 0).2 = some DbError.Truncated ∧
      midRecordTrunc [] = false := by
  decide

/-- C7 (amended): for every input, load's reported error equals the
spec-side classification `specLoadClassify` — `OutdatedFormat` for the
legacy magic, `UnknownHeader` for any other wrong magic, `UnknownRecord`
for a record-kind byte other than 0x42, and `Truncated` for end-of-input
either inside the header or inside a record (not only mid-record, which
refutes the claim's Truncated-iff-mid-record reading at short inputs) —
and on every failure the database is unchanged. -/
theorem c7_load_error_characterization (db : TxDatabase) (data : List Nat)
    (now : Int) :
    (loadDB db data now).2 = specLoadClassify data ∧
      ((loadDB db data now).2.isSome = true → (loadDB db data now).1 = db) := by
  have h := loadCore_err data now
  rw [loadDB]
  cases hc : loadCore data now with
  | error e =>
    rw [hc] at h
    exact ⟨h, fun _ => rfl⟩
  | ok p =>
    rw [hc] at h
    refine ⟨h, ?_⟩
    intro hs
    simp at hs

theorem c7_witness :
    (loadDB (mkTxDatabase 5) [9] 0).1 = mkTxDatabase 5 :=
  (c7_load_error_characterization (mkTxDatabase 5) [9] 0).2 (by decide)

end AirbitzTx
